import Mathlib

/-!
Verification of the TrendRadar AI response-recovery pipeline.

The pipeline (extraction of a JSON payload from noisy LLM output, syntactic
repair, drift detection, schema validation) is embedded shallowly over
`List Char`.  The `AIClient` configuration checks are embedded from
`trendradar/ai/client.py`.
-/

set_option maxRecDepth 8192

/-- Characters of a string literal, as the `List Char` the embedding works on. -/
def strL (s : String) : List Char := s.data

/-- The double-quote character. -/
def qt : Char := Char.ofNat 34

/-- The backslash character. -/
def bslash : Char := Char.ofNat 92

/-- The backtick character. -/
def btick : Char := Char.ofNat 96

/-- The opening-brace character. -/
def obr : Char := Char.ofNat 123

/-- The closing-brace character. -/
def cbr : Char := Char.ofNat 125

/-- Whitespace as stripped by the pipeline (space, newline, tab, carriage return). -/
def isWS (c : Char) : Bool :=
  c = ' ' || c = '\n' || c = '\t' || c = '\r'

/-- Drop leading whitespace characters. -/
def dropWS : List Char → List Char
  | [] => []
  | c :: rest => if isWS c then dropWS rest else c :: rest

/-- Strip whitespace from both ends. -/
def trimL (l : List Char) : List Char :=
  ((dropWS ((dropWS l).reverse)).reverse)

/-- ASCII lower-casing of one character. -/
def lowerChar (c : Char) : Char :=
  if 'A' ≤ c ∧ c ≤ 'Z' then Char.ofNat (c.toNat + 32) else c

/-- ASCII lower-casing of a character list. -/
def lowerL (l : List Char) : List Char := l.map lowerChar

/-- Whether `p` is a prefix of `l`. -/
def hasPre : List Char → List Char → Bool
  | [], _ => true
  | _ :: _, [] => false
  | p :: ps, c :: cs => p == c && hasPre ps cs

/-- Whether `pat` occurs as a contiguous substring of `l`. -/
def hasSub (pat : List Char) : List Char → Bool
  | [] => hasPre pat []
  | c :: rest => hasPre pat (c :: rest) || hasSub pat rest

/-- Whether `pat` is a suffix of `l`. -/
def hasSuf (pat l : List Char) : Bool :=
  hasPre pat.reverse l.reverse

/-- Whether character `c` occurs in `l`. -/
def memB (c : Char) : List Char → Bool
  | [] => false
  | d :: rest => if d = c then true else memB c rest

/-- Join pieces with a separator. -/
def joinSep (sep : List Char) : List (List Char) → List Char
  | [] => []
  | [x] => x
  | x :: rest => x ++ sep ++ joinSep sep rest

/-- Modelled from the spec: the fixed, case-insensitive DriftMarkers set —
bracket-delimited internal-tool tokens and internal filenames (the word-group
and include-word markers and the frequency-word-list / YAML config filenames
exercised by the repository's tests).  Stored lower-cased. -/
def driftMarkers : List (List Char) :=
  [strL ("[word_groups]"), strL ("[include_words]"),
   strL ("frequency_words.txt"), strL ("config.yaml")]

/-- Modelled from the spec: `looks_unrelated` — case-insensitive substring
match of the raw text against the fixed DriftMarkers set; true if any marker
occurs anywhere in the text.  (The analyzer source is absent from `src/`;
only its tests are present.) -/
def looks_unrelated (t : List Char) : Bool :=
  driftMarkers.any (fun m => hasSub m (lowerL t))

/-- Modelled from the spec: stripping of a leading byte-order mark. -/
def stripBOM : List Char → List Char
  | [] => []
  | c :: rest => if c = '\uFEFF' then rest else c :: rest

/-- Position after the first triple-backtick fence, if any. -/
def dropToFence : List Char → Option (List Char)
  | c1 :: c2 :: c3 :: rest =>
    if c1 = btick ∧ c2 = btick ∧ c3 = btick then some rest
    else dropToFence (c2 :: c3 :: rest)
  | _ => none

/-- Content up to the next triple-backtick fence, if any. -/
def takeToFence : List Char → Option (List Char)
  | c1 :: c2 :: c3 :: rest =>
    if c1 = btick ∧ c2 = btick ∧ c3 = btick then some []
    else (takeToFence (c2 :: c3 :: rest)).map (c1 :: ·)
  | _ => none

/-- Drop an optional `json` language tag right after an opening fence. -/
def dropJsonTag (l : List Char) : List Char :=
  if hasPre (strL ("json")) l then l.drop 4 else l

/-- Modelled from the spec: the substring between the first fence pair,
with an optional `json` language tag stripped. -/
def findFence (l : List Char) : Option (List Char) :=
  (dropToFence l).bind (fun r => takeToFence (dropJsonTag r))

/-- Scanner modes for the quote-aware brace scan: outside a string, inside a
string, and inside a string right after a backslash. -/
inductive SMode where
  | norm
  | instr
  | esc
deriving DecidableEq, Repr

/-- One step of the quote-aware depth scan; `none` signals that this character
is the closing brace balancing the first opening brace. -/
def sstep : Nat × SMode → Char → Option (Nat × SMode)
  | (d, SMode.norm), c =>
    if c = qt then some (d, SMode.instr)
    else if c = obr then some (d + 1, SMode.norm)
    else if c = cbr then (if d ≤ 1 then none else some (d - 1, SMode.norm))
    else some (d, SMode.norm)
  | (d, SMode.instr), c =>
    if c = bslash then some (d, SMode.esc)
    else if c = qt then some (d, SMode.norm)
    else some (d, SMode.instr)
  | (d, SMode.esc), _ => some (d, SMode.instr)

/-- Run the scan until the balancing brace, returning how many characters
were consumed (the balancing brace included). -/
def scanOb : List Char → Nat × SMode → Nat → Option Nat
  | [], _, _ => none
  | c :: rest, st, k =>
    match sstep st c with
    | none => some (k + 1)
    | some st2 => scanOb rest st2 (k + 1)

/-- Run the scan across a chunk that must not close the object, returning the
state after it. -/
def scanList : List Char → Nat × SMode → Option (Nat × SMode)
  | [], st => some st
  | c :: rest, st =>
    match sstep st c with
    | none => none
    | some st2 => scanList rest st2

/-- Drop characters up to the first opening brace. -/
def dropToBrace : List Char → List Char
  | [] => []
  | c :: rest => if c = obr then c :: rest else dropToBrace rest

/-- Modelled from the spec: locate the first top-level JSON object — the span
from the first `{` to the matching `}`, balancing nesting depth and ignoring
braces inside quoted strings. -/
def findObjectSpan (l : List Char) : Option (List Char) :=
  let t := dropToBrace l
  (scanOb t (0, SMode.norm) 0).map (fun n => t.take n)

/-- Modelled from the spec: `extract_json_text` — null/blank input yields the
empty string; a BOM is stripped; the first fenced code block wins; otherwise
the first brace-balanced object span; otherwise the trimmed original text. -/
def extract_json_text : Option (List Char) → List Char
  | none => []
  | some s0 =>
    let s := stripBOM s0
    if trimL s = [] then []
    else
      match findFence s with
      | some inner => trimL inner
      | none =>
        match findObjectSpan s with
        | some span => trimL span
        | none => trimL s

/-- State machine for the trailing-comma repair: the pending buffer holds a
comma and any following whitespace not yet known to precede a closing
bracket. -/
def repairA : List Char → List Char → List Char
  | [], pending => pending
  | c :: rest, pending =>
    if c = ',' then pending ++ repairA rest [c]
    else if pending = [] then c :: repairA rest []
    else if isWS c then repairA rest (pending ++ [c])
    else if c = cbr ∨ c = ']' then c :: repairA rest []
    else pending ++ c :: repairA rest []

/-- Modelled from the spec: `repair_common_json_issues` — a single
left-to-right pass removing a comma (with any intervening whitespace)
standing immediately before a closing `}` or `]`, as the regex substitution
the tests describe does. -/
def repair_common_json_issues (l : List Char) : List Char :=
  repairA l []

mutual

/-- Decoded JSON values.  Numbers keep their source lexeme: the spec does not
prescribe a numeric reformatting, and the pipeline only ever turns them back
into text. -/
inductive Json where
  | null : Json
  | bool (b : Bool) : Json
  | num (t : List Char) : Json
  | str (s : List Char) : Json
  | arr (xs : JArr) : Json
  | obj (ms : JMembers) : Json

/-- Elements of a JSON array. -/
inductive JArr where
  | nil : JArr
  | cons (hd : Json) (tl : JArr) : JArr

/-- Key/value members of a JSON object, in source order. -/
inductive JMembers where
  | nil : JMembers
  | cons (key : List Char) (val : Json) (tl : JMembers) : JMembers

end

/-- Unescape one character after a backslash in a JSON string literal. -/
def decodeEsc (e : Char) : Option Char :=
  if e = qt then some qt
  else if e = bslash then some bslash
  else if e = '/' then some '/'
  else if e = 'n' then some '\n'
  else if e = 't' then some '\t'
  else if e = 'r' then some '\r'
  else if e = 'b' then some (Char.ofNat 8)
  else if e = 'f' then some (Char.ofNat 12)
  else none

/-- Value of a hexadecimal digit. -/
def hexVal (c : Char) : Option Nat :=
  if '0' ≤ c ∧ c ≤ '9' then some (c.toNat - 48)
  else if 'a' ≤ c ∧ c ≤ 'f' then some (c.toNat - 87)
  else if 'A' ≤ c ∧ c ≤ 'F' then some (c.toNat - 55)
  else none

/-- Parse the body of a JSON string literal (the opening quote already
consumed), returning the decoded characters and the rest of the input. -/
def parseStrBody : List Char → Option (List Char × List Char)
  | [] => none
  | c :: rest =>
    if c = qt then some ([], rest)
    else if c = bslash then
      match rest with
      | [] => none
      | e :: rest2 =>
        if e = 'u' then
          match rest2 with
          | a :: b :: c3 :: d :: rest3 =>
            match hexVal a, hexVal b, hexVal c3, hexVal d with
            | some x1, some x2, some x3, some x4 =>
              (parseStrBody rest3).map
                (fun p => (Char.ofNat (4096 * x1 + 256 * x2 + 16 * x3 + x4) :: p.1, p.2))
            | _, _, _, _ => none
          | _ => none
        else
          match decodeEsc e with
          | some c2 => (parseStrBody rest2).map (fun p => (c2 :: p.1, p.2))
          | none => none
    else (parseStrBody rest).map (fun p => (c :: p.1, p.2))

/-- Characters a JSON number lexeme may contain. -/
def isNumChar (c : Char) : Bool :=
  c.isDigit || c = '-' || c = '+' || c = '.' || c = 'e' || c = 'E'

/-- Longest leading run of number characters. -/
def lexNum : List Char → List Char × List Char
  | [] => ([], [])
  | c :: rest =>
    if isNumChar c then
      let p := lexNum rest
      (c :: p.1, p.2)
    else ([], c :: rest)

mutual

/-- Fuel-bounded recursive-descent JSON value parser (models `json.loads`). -/
def parseVal : Nat → List Char → Option (Json × List Char)
  | 0, _ => none
  | Nat.succ fuel, l =>
    match dropWS l with
    | [] => none
    | c :: rest =>
      if c = obr then
        match dropWS rest with
        | d :: rest2 =>
          if d = cbr then some (Json.obj JMembers.nil, rest2)
          else
            match parseMembers fuel (d :: rest2) with
            | some (ms, r) => some (Json.obj ms, r)
            | none => none
        | [] => none
      else if c = '[' then
        match dropWS rest with
        | d :: rest2 =>
          if d = ']' then some (Json.arr JArr.nil, rest2)
          else
            match parseItems fuel (d :: rest2) with
            | some (xs, r) => some (Json.arr xs, r)
            | none => none
        | [] => none
      else if c = qt then
        match parseStrBody rest with
        | some (s, r) => some (Json.str s, r)
        | none => none
      else if c = 't' then
        if hasPre (strL ("rue")) rest then some (Json.bool true, rest.drop 3) else none
      else if c = 'f' then
        if hasPre (strL ("alse")) rest then some (Json.bool false, rest.drop 4) else none
      else if c = 'n' then
        if hasPre (strL ("ull")) rest then some (Json.null, rest.drop 3) else none
      else if c.isDigit ∨ c = '-' then
        let p := lexNum (c :: rest)
        some (Json.num p.1, p.2)
      else none

/-- Parse the members of a JSON object up to and including the closing
brace. -/
def parseMembers : Nat → List Char → Option (JMembers × List Char)
  | 0, _ => none
  | Nat.succ fuel, l =>
    match dropWS l with
    | c :: rest =>
      if c = qt then
        match parseStrBody rest with
        | some (key, r1) =>
          match dropWS r1 with
          | d :: r2 =>
            if d = ':' then
              match parseVal fuel r2 with
              | some (v, r3) =>
                match dropWS r3 with
                | e :: r4 =>
                  if e = ',' then
                    match parseMembers fuel r4 with
                    | some (ms, r) => some (JMembers.cons key v ms, r)
                    | none => none
                  else if e = cbr then some (JMembers.cons key v JMembers.nil, r4)
                  else none
                | [] => none
              | none => none
            else none
          | [] => none
        | none => none
      else none
    | [] => none

/-- Parse the elements of a JSON array up to and including the closing
bracket. -/
def parseItems : Nat → List Char → Option (JArr × List Char)
  | 0, _ => none
  | Nat.succ fuel, l =>
    match parseVal fuel l with
    | some (v, r1) =>
      match dropWS r1 with
      | e :: r2 =>
        if e = ',' then
          match parseItems fuel r2 with
          | some (xs, r) => some (JArr.cons v xs, r)
          | none => none
        else if e = ']' then some (JArr.cons v JArr.nil, r2)
        else none
      | [] => none
    | none => none

end

/-- Modelled from the spec: decoding the candidate as JSON (`json.loads`):
parse one value and require only trailing whitespace after it. -/
def decodeJson (l : List Char) : Option Json :=
  match parseVal (2 * l.length + 2) l with
  | some (v, rest) => if dropWS rest = [] then some v else none
  | none => none

/-- Escape a string for JSON serialization (quote and backslash). -/
def escapeStr : List Char → List Char
  | [] => []
  | c :: rest =>
    if c = qt then bslash :: qt :: escapeStr rest
    else if c = bslash then bslash :: bslash :: escapeStr rest
    else c :: escapeStr rest

mutual

/-- Serialize a JSON value back to text (models `json.dumps` up to the
spec's leeway: compact separators, quote/backslash escaping). -/
def serialize : Json → List Char
  | Json.null => strL ("null")
  | Json.bool true => strL ("true")
  | Json.bool false => strL ("false")
  | Json.num t => t
  | Json.str s => qt :: escapeStr s ++ [qt]
  | Json.arr xs => '[' :: serItems xs ++ [']']
  | Json.obj ms => obr :: serMembers ms ++ [cbr]

/-- Serialize array elements, comma separated. -/
def serItems : JArr → List Char
  | JArr.nil => []
  | JArr.cons v JArr.nil => serialize v
  | JArr.cons v tl => serialize v ++ ',' :: serItems tl

/-- Serialize object members, comma separated. -/
def serMembers : JMembers → List Char
  | JMembers.nil => []
  | JMembers.cons k v JMembers.nil => qt :: escapeStr k ++ qt :: ':' :: serialize v
  | JMembers.cons k v tl =>
    (qt :: escapeStr k ++ qt :: ':' :: serialize v) ++ ',' :: serMembers tl

end

/-- Modelled from the spec: per-field coercion to canonical string form —
null becomes the empty string, objects and arrays become their JSON text,
scalars their string form (Python `str`). -/
def coerceValue : Json → List Char
  | Json.null => []
  | Json.bool true => strL ("True")
  | Json.bool false => strL ("False")
  | Json.num t => t
  | Json.str s => s
  | Json.arr xs => serialize (Json.arr xs)
  | Json.obj ms => serialize (Json.obj ms)

/-- Modelled from the spec: the fixed ordered RequiredFieldSet. -/
def requiredFields : List (List Char) :=
  [strL ("core_trends"), strL ("sentiment_controversy"), strL ("signals"),
   strL ("rss_insights"), strL ("outlook_strategy")]

/-- Look a key up among object members; a later duplicate wins, as in a
Python dict built by `json.loads`. -/
def lookupMem (name : List Char) : JMembers → Option Json
  | JMembers.nil => none
  | JMembers.cons k v tl =>
    match lookupMem name tl with
    | some r => some r
    | none => if k = name then some v else none

/-- Read a required field from the decoded value; any non-object decodes to
"no matching fields". -/
def getField : Json → List Char → Option Json
  | Json.obj ms, name => lookupMem name ms
  | _, _ => none

/-- The failure categories of §7 of the spec. -/
inductive FailCat where
  | emptyResponse
  | validationFailed
  | decodeError
  | missingFields
deriving DecidableEq, Repr

/-- Modelled from the spec: the tagged ParseResult — Success holds the five
canonical string fields, Failure a categorized message. -/
inductive ParseResult where
  | success (core_trends sentiment_controversy signals rss_insights
      outlook_strategy : List Char) : ParseResult
  | failure (category : FailCat) (error : List Char) : ParseResult
deriving DecidableEq, Repr

/-- Empty-response message (contains the substring the tests check for). -/
def emptyMsg : List Char := strL ("AI 返回空响应")

/-- Validation-failure message (contains the substring the tests check
for). -/
def validationMsg : List Char := strL ("响应校验失败：检测到跑偏内容")

/-- Missing-fields message: enumerates exactly the missing field names. -/
def missingMsg (fs : List (List Char)) : List Char :=
  strL ("缺少字段: ") ++ joinSep (strL (", ")) fs

/-- Decode-error message: carries the failing candidate as diagnostic. -/
def decodeMsg (candidate : List Char) : List Char :=
  strL ("JSON 解析失败: ") ++ candidate

/-- Modelled from the spec: steps 5–9 — field extraction with coercion, the
missing-fields check, then the per-field drift check. -/
def validateFields (v : Json) : ParseResult :=
  let missing := requiredFields.filter (fun f => (getField v f).isNone)
  if missing = [] then
    let g := fun f => coerceValue ((getField v f).getD Json.null)
    if (requiredFields.map g).any looks_unrelated then
      ParseResult.failure FailCat.validationFailed validationMsg
    else
      ParseResult.success (g (strL ("core_trends"))) (g (strL ("sentiment_controversy")))
        (g (strL ("signals"))) (g (strL ("rss_insights"))) (g (strL ("outlook_strategy")))
  else ParseResult.failure FailCat.missingFields (missingMsg missing)

/-- Modelled from the spec: `parse_response`, the single public entry point —
empty check, pre-parse drift check, extraction, repair, JSON decode, then
field validation; every failure is returned as data. -/
def parse_response (raw : Option (List Char)) : ParseResult :=
  match raw with
  | none => ParseResult.failure FailCat.emptyResponse emptyMsg
  | some s =>
    if trimL s = [] then ParseResult.failure FailCat.emptyResponse emptyMsg
    else if looks_unrelated s then
      ParseResult.failure FailCat.validationFailed validationMsg
    else
      let candidate := repair_common_json_issues (extract_json_text (some s))
      match decodeJson candidate with
      | none => ParseResult.failure FailCat.decodeError (decodeMsg candidate)
      | some v => validateFields v

/-- The AI client configuration state, as set up by `AIClient.__init__` in
`trendradar/ai/client.py`. -/
structure AIClient where
  model : List Char
  api_key : List Char
  api_base : List Char

/-- `AIClient._validate_gemini_endpoint`: empty means the default endpoint;
otherwise the endpoint must start with an HTTP/HTTPS scheme. -/
def validate_gemini_endpoint (endpoint : List Char) : Bool :=
  if endpoint = [] then true
  else hasPre (strL ("http://")) endpoint || hasPre (strL ("https://")) endpoint

/-- `AIClient.validate_config`: model configured, API key configured,
`provider/model` format, and a well-formed custom Gemini endpoint. -/
def validate_config (c : AIClient) : Bool × List Char :=
  if c.model = [] then (false, strL ("未配置 AI 模型（model）"))
  else if c.api_key = [] then
    (false, strL ("未配置 AI API Key，请在 config.yaml 或环境变量 AI_API_KEY 中设置"))
  else if memB '/' c.model = false then
    (false, strL ("模型格式错误: ") ++ c.model ++
      strL ("，应为 'provider/model' 格式（如 'deepseek/deepseek-chat'）"))
  else if hasPre (strL ("gemini/")) c.model ∧ c.api_base ≠ [] ∧
      validate_gemini_endpoint c.api_base = false then
    (false, strL ("自定义 Gemini API 端点格式错误: ") ++ c.api_base ++
      strL ("，应为有效的 HTTP/HTTPS URL"))
  else (true, [])

/-- Strip trailing slashes (Python `rstrip("/")`). -/
def dropSlashes : List Char → List Char
  | [] => []
  | c :: rest => if c = '/' then dropSlashes rest else c :: rest

/-- `rstrip("/")` on a character list. -/
def rstripSlash (l : List Char) : List Char :=
  (dropSlashes l.reverse).reverse

/-- `AIClient._normalize_gemini_endpoint`: drop trailing slashes, then append
`/v1` unless the endpoint already mentions `/v1` (or `/v1beta`, which
contains it) or already ends in a full API path. -/
def normalize_gemini_endpoint (endpoint : List Char) : List Char :=
  if endpoint = [] then endpoint
  else
    let e := rstripSlash endpoint
    if hasSub (strL ("/v1")) e = false ∧ hasSub (strL ("/v1beta")) e = false then
      if (hasSuf (strL ("/chat")) e || hasSuf (strL ("/completions")) e ||
          hasSuf (strL ("/generate")) e) = false then
        e ++ strL ("/v1")
      else e
    else e

/-- Shape of a number lexeme as the decoder itself produces it. -/
def numOk : List Char → Bool
  | [] => false
  | c :: rest => (c.isDigit || c = '-') && (c :: rest).all isNumChar

mutual

/-- Well-formedness of a decoded value: number lexemes have decoder shape. -/
def wfJ : Json → Bool
  | Json.null => true
  | Json.bool _ => true
  | Json.num t => numOk t
  | Json.str _ => true
  | Json.arr xs => wfA xs
  | Json.obj ms => wfM ms

/-- Well-formedness of array elements. -/
def wfA : JArr → Bool
  | JArr.nil => true
  | JArr.cons v tl => wfJ v && wfA tl

/-- Well-formedness of object members. -/
def wfM : JMembers → Bool
  | JMembers.nil => true
  | JMembers.cons _ v tl => wfJ v && wfM tl

end

/-- Whether the input may directly follow a number lexeme without extending
it. -/
def stopOk : List Char → Bool
  | [] => true
  | c :: _ => !(isNumChar c)

/-- The required fields absent from the decoded value. -/
def missingOf (v : Json) : List (List Char) :=
  requiredFields.filter (fun f => (getField v f).isNone)

/-- The coerced value of one required field. -/
def fieldValue (v : Json) (f : List Char) : List Char :=
  coerceValue ((getField v f).getD Json.null)

/-- Witness input for the raw-text branch of C3. -/
def drfRaw : List Char := strL ("[WORD_GROUPS]\n+关键词")

/-- Witness input for the field-value branch of C3: the marker is hidden from
the raw text behind a JSON \u escape and only appears after decoding. -/
def drfField : List Char :=
  strL ("\x7b\"core_trends\":\"confi\\u0067.yaml\",\"sentiment_controversy\":\"b\",\"signals\":\"c\",\"rss_insights\":\"d\",\"outlook_strategy\":\"e\"\x7d")

/-- The decoded value of `drfField`. -/
def drfFieldVal : Json :=
  Json.obj (JMembers.cons (strL ("core_trends")) (Json.str (strL ("config.yaml")))
    (JMembers.cons (strL ("sentiment_controversy")) (Json.str (strL ("b")))
    (JMembers.cons (strL ("signals")) (Json.str (strL ("c")))
    (JMembers.cons (strL ("rss_insights")) (Json.str (strL ("d")))
    (JMembers.cons (strL ("outlook_strategy")) (Json.str (strL ("e")))
      JMembers.nil)))))

/-- The C2 counterexample input: a top-level JSON array whose single element
is an internal config filename. -/
def arrDriftInput : List Char := strL ("[\"config.yaml\"]")

/-- The C4 witness input, missing `signals`. -/
def missInput : List Char :=
  strL ("\x7b\"core_trends\":\"a\",\"sentiment_controversy\":\"b\",\"rss_insights\":\"d\",\"outlook_strategy\":\"e\"\x7d")

/-- The decoded value of `missInput`. -/
def missVal : Json :=
  Json.obj (JMembers.cons (strL ("core_trends")) (Json.str (strL ("a")))
    (JMembers.cons (strL ("sentiment_controversy")) (Json.str (strL ("b")))
    (JMembers.cons (strL ("rss_insights")) (Json.str (strL ("d")))
    (JMembers.cons (strL ("outlook_strategy")) (Json.str (strL ("e")))
      JMembers.nil))))

/-- Whether the input starts with whitespace followed by a closing bracket. -/
def wsThenClose : List Char → Bool
  | [] => false
  | c :: rest =>
    if isWS c then wsThenClose rest
    else if c = cbr then true
    else if c = ']' then true
    else false

/-- Whether the input starts with whitespace followed by a comma. -/
def wsThenComma : List Char → Bool
  | [] => false
  | c :: rest =>
    if isWS c then wsThenComma rest
    else if c = ',' then true
    else false

/-- No comma anywhere in the text is followed (after only whitespace) by a
closing bracket. -/
def noCommaClose : List Char → Bool
  | [] => true
  | c :: rest =>
    (if c = ',' then !(wsThenClose rest) else true) && noCommaClose rest

/-- No comma anywhere in the text is followed (after only whitespace) by
another comma. -/
def noDblComma : List Char → Bool
  | [] => true
  | c :: rest =>
    (if c = ',' then !(wsThenComma rest) else true) && noDblComma rest

/-- The C6 witness input with a null field and a nested-object field. -/
def coerceInput : List Char :=
  strL ("\x7b\"core_trends\": \x7b\"key\": \"value\"\x7d, \"sentiment_controversy\": null, \"signals\": \"c\", \"rss_insights\": \"d\", \"outlook_strategy\": \"e\"\x7d")

/-- The decoded value of `coerceInput`. -/
def coerceVal : Json :=
  Json.obj (JMembers.cons (strL ("core_trends"))
    (Json.obj (JMembers.cons (strL ("key")) (Json.str (strL ("value")))
      JMembers.nil))
    (JMembers.cons (strL ("sentiment_controversy")) Json.null
    (JMembers.cons (strL ("signals")) (Json.str (strL ("c")))
    (JMembers.cons (strL ("rss_insights")) (Json.str (strL ("d")))
    (JMembers.cons (strL ("outlook_strategy")) (Json.str (strL ("e")))
      JMembers.nil)))))

/-- The five required fields with direct string values, in order. -/
def mkFive (a b c d e : List Char) : JMembers :=
  JMembers.cons (strL ("core_trends")) (Json.str a)
    (JMembers.cons (strL ("sentiment_controversy")) (Json.str b)
    (JMembers.cons (strL ("signals")) (Json.str c)
    (JMembers.cons (strL ("rss_insights")) (Json.str d)
    (JMembers.cons (strL ("outlook_strategy")) (Json.str e) JMembers.nil))))

/-- The canonical JSON object text with the five fields as direct string
values. -/
def mkObjText (a b c d e : List Char) : List Char :=
  serialize (Json.obj (mkFive a b c d e))

/-- A JSON object with all five required fields as direct string values,
one of which contains a backtick code fence. -/
def cexC1 : List Char :=
  strL ("\x7b\"core_trends\":\"```x```\",\"sentiment_controversy\":\"b\",\"signals\":\"c\",\"rss_insights\":\"d\",\"outlook_strategy\":\"e\"\x7d")

/-- The claim's example valid JSON object text with the five required
fields as direct string values. -/
def bareC7 : List Char :=
  strL ("\x7b\"core_trends\":\"a\",\"sentiment_controversy\":\"b\",\"signals\":\"c\",\"rss_insights\":\"d\",\"outlook_strategy\":\"e\"\x7d")

/-- The same object prefixed with drift-marker-free prose that contains an
opening brace. -/
def proseC7 : List Char := strL ("x\x7by ") ++ bareC7

theorem hasPre_iff (p l : List Char) : hasPre p l = true ↔ ∃ q, l = p ++ q := by
  induction p generalizing l with
  | nil => simp [hasPre]
  | cons a ps ih =>
    cases l with
    | nil => simp [hasPre]
    | cons c cs =>
      simp only [hasPre, Bool.and_eq_true, beq_iff_eq, ih, List.cons_append,
        List.cons.injEq]
      constructor
      · rintro ⟨rfl, q, rfl⟩; exact ⟨q, rfl, rfl⟩
      · rintro ⟨q, rfl, rfl⟩; exact ⟨rfl, q, rfl⟩

theorem hasSub_iff (pat l : List Char) :
    hasSub pat l = true ↔ ∃ p q, l = p ++ pat ++ q := by
  induction l with
  | nil =>
    simp only [hasSub, hasPre_iff]
    constructor
    · rintro ⟨q, hq⟩; exact ⟨[], q, by simp [hq]⟩
    · rintro ⟨p, q, hq⟩
      have h0 : p ++ pat ++ q = ([] : List Char) := hq.symm
      rcases List.append_eq_nil.mp h0 with ⟨h1, h2⟩
      rcases List.append_eq_nil.mp h1 with ⟨h3, h4⟩
      exact ⟨q, by simp [h4, h2]⟩
  | cons c rest ih =>
    simp only [hasSub, Bool.or_eq_true, hasPre_iff, ih]
    constructor
    · rintro (⟨q, hq⟩ | ⟨p, q, hq⟩)
      · exact ⟨[], q, by simp [hq]⟩
      · exact ⟨c :: p, q, by simp [hq]⟩
    · rintro ⟨p, q, hq⟩
      cases p with
      | nil => exact Or.inl ⟨q, by simpa using hq⟩
      | cons x xs =>
        right
        simp only [List.cons_append, List.cons.injEq] at hq
        exact ⟨xs, q, hq.2⟩

theorem memB_iff (c : Char) (l : List Char) : memB c l = true ↔ c ∈ l := by
  induction l with
  | nil => simp [memB]
  | cons d rest ih =>
    simp only [memB]
    by_cases h : d = c
    · subst h; simp
    · simp only [if_neg h, ih, List.mem_cons]
      constructor
      · exact Or.inr
      · rintro (h' | h')
        · exact absurd h'.symm h
        · exact h'

theorem dropWS_eq_nil_iff (l : List Char) : dropWS l = [] ↔ l.all isWS = true := by
  induction l with
  | nil => simp [dropWS]
  | cons c rest ih =>
    simp only [dropWS, List.all_cons, Bool.and_eq_true]
    by_cases h : isWS c = true
    · simp [h, ih]
    · simp [h]

theorem all_isWS_dropWS (l : List Char) :
    (dropWS l).all isWS = l.all isWS := by
  induction l with
  | nil => simp [dropWS]
  | cons c rest ih =>
    simp only [dropWS]
    by_cases h : isWS c = true
    · simp [h, ih]
    · simp [h]

theorem trimL_eq_nil_iff (l : List Char) : trimL l = [] ↔ l.all isWS = true := by
  unfold trimL
  rw [List.reverse_eq_nil_iff, dropWS_eq_nil_iff, List.all_reverse,
    all_isWS_dropWS]

theorem trimL_cons_ws (w : Char) (l : List Char) (hw : isWS w = true) :
    trimL (w :: l) = trimL l := by
  unfold trimL
  simp [dropWS, hw]

theorem trimL_append_ws (w : Char) (l : List Char) (hw : isWS w = true) :
    trimL (l ++ [w]) = trimL l := by
  induction l with
  | nil =>
    unfold trimL
    simp [dropWS, hw]
  | cons c l' ih =>
    by_cases h : isWS c = true
    · rw [List.cons_append, trimL_cons_ws c _ h, trimL_cons_ws c _ h, ih]
    · unfold trimL
      have h1 : dropWS (c :: (l' ++ [w])) = c :: (l' ++ [w]) := by
        simp [dropWS, h]
      have h2 : dropWS (c :: l') = c :: l' := by simp [dropWS, h]
      rw [List.cons_append, h1, h2]
      have h3 : (c :: (l' ++ [w])).reverse = w :: (c :: l').reverse := by simp
      rw [h3]
      have h4 : dropWS (w :: (c :: l').reverse) = dropWS ((c :: l').reverse) := by
        simp [dropWS, hw]
      rw [h4]

theorem trimL_self (a b : Char) (mid : List Char) (ha : isWS a = false)
    (hb : isWS b = false) : trimL (a :: (mid ++ [b])) = a :: (mid ++ [b]) := by
  unfold trimL
  have h1 : dropWS (a :: (mid ++ [b])) = a :: (mid ++ [b]) := by
    simp [dropWS, ha]
  rw [h1]
  have h3 : (a :: (mid ++ [b])).reverse = b :: (mid.reverse ++ [a]) := by simp
  rw [h3]
  have h4 : dropWS (b :: (mid.reverse ++ [a])) = b :: (mid.reverse ++ [a]) := by
    simp [dropWS, hb]
  rw [h4]
  simp

theorem lowerL_append (x y : List Char) :
    lowerL (x ++ y) = lowerL x ++ lowerL y := by
  simp [lowerL]

theorem hasSub_append_left (m x y : List Char) (h : hasSub m x = true) :
    hasSub m (x ++ y) = true := by
  rw [hasSub_iff] at h ⊢
  obtain ⟨p, q, rfl⟩ := h
  exact ⟨p, q ++ y, by simp⟩

theorem hasSub_append_right (m x y : List Char) (h : hasSub m y = true) :
    hasSub m (x ++ y) = true := by
  rw [hasSub_iff] at h ⊢
  obtain ⟨p, q, rfl⟩ := h
  exact ⟨x ++ p, q, by simp⟩

theorem hasSub_append_cases (m x y : List Char) (h : hasSub m (x ++ y) = true) :
    hasSub m x = true ∨ hasSub m y = true ∨
      ∃ m₁ m₂, m = m₁ ++ m₂ ∧ m₁ ≠ [] ∧ m₂ ≠ [] ∧ (∃ p, x = p ++ m₁) ∧
        hasPre m₂ y = true := by
  rw [hasSub_iff] at h
  obtain ⟨p, q, hq⟩ := h
  have h2 : x ++ y = (p ++ m) ++ q := by rw [hq]
  rcases List.append_eq_append_iff.mp h2 with ⟨a, ha1, ha2⟩ | ⟨c, hc1, hc2⟩
  · rcases List.append_eq_append_iff.mp ha1 with ⟨p2, hp1, hp2⟩ | ⟨x2, hx1, hx2⟩
    · cases p2 with
      | nil =>
        right; left
        rw [hasSub_iff]
        exact ⟨[], q, by rw [ha2, hp2]; simp⟩
      | cons u us =>
        cases a with
        | nil =>
          left
          rw [hasSub_iff]
          exact ⟨p, [], by rw [hp1, hp2]; simp⟩
        | cons w ws =>
          right; right
          refine ⟨u :: us, w :: ws, hp2, by simp, by simp, ⟨p, hp1⟩, ?_⟩
          rw [hasPre_iff]
          exact ⟨q, ha2⟩
    · right; left
      rw [hasSub_iff]
      exact ⟨x2, q, by rw [ha2, hx2]⟩
  · left
    rw [hasSub_iff]
    exact ⟨p, c, by rw [hc1]⟩

theorem first_mem_of_pre (m₂ : List Char) (b : Char) (y' : List Char)
    (h : hasPre m₂ (b :: y') = true) (hne : m₂ ≠ []) : b ∈ m₂ := by
  cases m₂ with
  | nil => exact absurd rfl hne
  | cons c cs =>
    simp only [hasPre, Bool.and_eq_true, beq_iff_eq] at h
    simp [h.1]

theorem last_mem_of_append (p m₁ x' : List Char) (b : Char)
    (h : p ++ m₁ = x' ++ [b]) (hne : m₁ ≠ []) : b ∈ m₁ := by
  have hr := congrArg List.reverse h
  simp only [List.reverse_append, List.reverse_cons, List.reverse_nil,
    List.nil_append, List.singleton_append] at hr
  cases hm : m₁.reverse with
  | nil => exact absurd (by simpa using congrArg List.reverse hm) hne
  | cons c t =>
    rw [hm] at hr
    simp only [List.cons_append, List.cons.injEq] at hr
    have : c ∈ m₁.reverse := by rw [hm]; simp
    rw [List.mem_reverse] at this
    rwa [hr.1] at this

theorem noSub_glue_left (m x y : List Char) (b : Char)
    (hm : memB b m = false) (hy0 : ∃ y', y = b :: y')
    (hx : hasSub m x = false) (hy : hasSub m y = false) :
    hasSub m (x ++ y) = false := by
  by_contra hcon
  rw [Bool.not_eq_false] at hcon
  rcases hasSub_append_cases m x y hcon with h | h | ⟨m₁, m₂, hm12, h1, h2, _, hpre⟩
  · rw [h] at hx; cases hx
  · rw [h] at hy; cases hy
  · obtain ⟨y', rfl⟩ := hy0
    have hb : b ∈ m₂ := first_mem_of_pre m₂ b y' hpre h2
    have : b ∈ m := by rw [hm12]; exact List.mem_append_right _ hb
    rw [← memB_iff] at this
    rw [this] at hm; cases hm

theorem noSub_glue_right (m x y : List Char) (b : Char)
    (hm : memB b m = false) (hx0 : ∃ x', x = x' ++ [b])
    (hx : hasSub m x = false) (hy : hasSub m y = false) :
    hasSub m (x ++ y) = false := by
  by_contra hcon
  rw [Bool.not_eq_false] at hcon
  rcases hasSub_append_cases m x y hcon with h | h | ⟨m₁, m₂, hm12, h1, h2, ⟨p, hp⟩, _⟩
  · rw [h] at hx; cases hx
  · rw [h] at hy; cases hy
  · obtain ⟨x', rfl⟩ := hx0
    have hb : b ∈ m₁ := last_mem_of_append p m₁ x' b hp.symm h1
    have : b ∈ m := by rw [hm12]; exact List.mem_append_left _ hb
    rw [← memB_iff] at this
    rw [this] at hm; cases hm

theorem looks_unrelated_eq_false_iff (t : List Char) :
    looks_unrelated t = false ↔
      ∀ m ∈ driftMarkers, hasSub m (lowerL t) = false := by
  unfold looks_unrelated
  constructor
  · intro h m hm
    by_contra hc
    rw [Bool.not_eq_false] at hc
    have h2 : driftMarkers.any (fun m => hasSub m (lowerL t)) = true :=
      List.any_eq_true.mpr ⟨m, hm, hc⟩
    rw [h2] at h; cases h
  · intro h
    by_contra hc
    rw [Bool.not_eq_false] at hc
    obtain ⟨m, hm, hx⟩ := List.any_eq_true.mp hc
    have := h m hm
    rw [hx] at this; cases this

theorem marker_no_obr : ∀ m ∈ driftMarkers, memB obr m = false := by decide

theorem marker_no_cbr : ∀ m ∈ driftMarkers, memB cbr m = false := by decide

theorem marker_no_nl : ∀ m ∈ driftMarkers, memB '\n' m = false := by decide

theorem marker_has_nonws : ∀ m ∈ driftMarkers, ∃ c ∈ m, isWS c = false := by
  decide

theorem lowerChar_of_ws (c : Char) (h : isWS c = true) : lowerChar c = c := by
  have h' : c = ' ' ∨ c = '\n' ∨ c = '\t' ∨ c = '\r' := by
    simp only [isWS, Bool.or_eq_true, decide_eq_true_eq] at h
    tauto
  rcases h' with rfl | rfl | rfl | rfl <;> decide

theorem looks_unrelated_of_all_ws (t : List Char) (h : t.all isWS = true) :
    looks_unrelated t = false := by
  rw [looks_unrelated_eq_false_iff]
  intro m hm
  by_contra hc
  rw [Bool.not_eq_false, hasSub_iff] at hc
  obtain ⟨p, q, hpq⟩ := hc
  obtain ⟨c, hcm, hcw⟩ := marker_has_nonws m hm
  have hmem : c ∈ lowerL t := by
    rw [hpq]
    exact List.mem_append_left _ (List.mem_append_right _ hcm)
  rw [lowerL, List.mem_map] at hmem
  obtain ⟨d, hd, hdc⟩ := hmem
  have hdw : isWS d = true := List.all_eq_true.mp h d hd
  rw [← hdc, lowerChar_of_ws d hdw] at hcw
  rw [hdw] at hcw; cases hcw

theorem looks_unrelated_trim_nil (t : List Char) (h : trimL t = []) :
    looks_unrelated t = false :=
  looks_unrelated_of_all_ws t ((trimL_eq_nil_iff t).mp h)

theorem lowerChar_obr : lowerChar obr = obr := by decide

theorem lowerChar_cbr : lowerChar cbr = cbr := by decide

theorem looks_unrelated_glue_three (p₁ J p₂ : List Char)
    (hJh : ∃ t, J = obr :: t) (hJl : ∃ t, J = t ++ [cbr])
    (h1 : looks_unrelated p₁ = false) (h2 : looks_unrelated J = false)
    (h3 : looks_unrelated p₂ = false) :
    looks_unrelated (p₁ ++ (J ++ p₂)) = false := by
  rw [looks_unrelated_eq_false_iff] at h1 h2 h3 ⊢
  intro m hm
  rw [lowerL_append, lowerL_append]
  have hJP : hasSub m (lowerL J ++ lowerL p₂) = false := by
    apply noSub_glue_right m _ _ cbr (marker_no_cbr m hm)
    · obtain ⟨t, ht⟩ := hJl
      exact ⟨lowerL t, by rw [ht, lowerL_append]; simp [lowerL, lowerChar_cbr]⟩
    · exact h2 m hm
    · exact h3 m hm
  apply noSub_glue_left m _ _ obr (marker_no_obr m hm)
  · obtain ⟨t, ht⟩ := hJh
    exact ⟨lowerL t ++ lowerL p₂, by rw [ht]; simp [lowerL, lowerChar_obr]⟩
  · exact h1 m hm
  · exact hJP

theorem fence_tag_no_marker :
    ∀ m ∈ driftMarkers,
      hasSub m (lowerL (strL ("```") ++ strL ("json") ++ strL ("\n"))) = false := by
  decide

theorem fence_bare_no_marker :
    ∀ m ∈ driftMarkers,
      hasSub m (lowerL (strL ("```") ++ ([] : List Char) ++ strL ("\n"))) = false := by
  decide

theorem fence_close_no_marker :
    ∀ m ∈ driftMarkers, hasSub m (lowerL (strL ("\n```"))) = false := by
  decide

theorem looks_unrelated_glue_fence (tag J : List Char)
    (htag : tag = strL ("json") ∨ tag = [])
    (h2 : looks_unrelated J = false) :
    looks_unrelated ((strL ("```") ++ tag ++ strL ("\n")) ++
      (J ++ strL ("\n```"))) = false := by
  rw [looks_unrelated_eq_false_iff] at h2 ⊢
  intro m hm
  rw [lowerL_append]
  apply noSub_glue_right m _ _ '\n' (marker_no_nl m hm)
  · rcases htag with rfl | rfl
    · exact ⟨lowerL (strL ("```json")), by decide⟩
    · exact ⟨lowerL (strL ("```")), by decide⟩
  · rcases htag with rfl | rfl
    · exact fence_tag_no_marker m hm
    · exact fence_bare_no_marker m hm
  · rw [lowerL_append]
    apply noSub_glue_left m _ _ '\n' (marker_no_nl m hm)
    · exact ⟨lowerL (strL ("```")), by decide⟩
    · exact h2 m hm
    · exact fence_close_no_marker m hm

theorem memB_cons (b c : Char) (l : List Char) :
    memB b (c :: l) = false ↔ c ≠ b ∧ memB b l = false := by
  simp only [memB]
  by_cases h : c = b
  · simp [h]
  · simp [h]

theorem memB_append (b : Char) (x y : List Char) :
    memB b (x ++ y) = false ↔ memB b x = false ∧ memB b y = false := by
  induction x with
  | nil => simp [memB]
  | cons c rest ih =>
    rw [List.cons_append, memB_cons, memB_cons, ih, and_assoc]

theorem dropToFence_none (l : List Char) (h : memB btick l = false) :
    dropToFence l = none := by
  induction l with
  | nil => rfl
  | cons c rest ih =>
    rcases rest with _ | ⟨c2, _ | ⟨c3, rest3⟩⟩
    · rfl
    · rfl
    · rw [dropToFence]
      rw [memB_cons] at h
      rw [if_neg (fun hh => absurd hh.1 h.1)]
      exact ih h.2

theorem findFence_none (l : List Char) (h : memB btick l = false) :
    findFence l = none := by
  rw [findFence, dropToFence_none l h]
  rfl

theorem dropToFence_concat (pre rest : List Char)
    (h : memB btick pre = false) :
    dropToFence (pre ++ btick :: btick :: btick :: rest) = some rest := by
  induction pre with
  | nil =>
    rw [List.nil_append, dropToFence, if_pos ⟨rfl, rfl, rfl⟩]
  | cons c pre' ih =>
    rw [memB_cons] at h
    have hlen : (pre' ++ btick :: btick :: btick :: rest).length ≥ 3 := by
      simp; omega
    rcases hx : pre' ++ btick :: btick :: btick :: rest with _ | ⟨x1, _ | ⟨x2, x3⟩⟩
    · rw [hx] at hlen; simp at hlen
    · rw [hx] at hlen; simp at hlen
    · rw [List.cons_append, hx, dropToFence,
        if_neg (fun hh => absurd hh.1 h.1), ← hx]
      exact ih h.2

theorem takeToFence_concat (x rest : List Char) (h : memB btick x = false) :
    takeToFence (x ++ btick :: btick :: btick :: rest) = some x := by
  induction x with
  | nil =>
    rw [List.nil_append, takeToFence, if_pos ⟨rfl, rfl, rfl⟩]
  | cons c x' ih =>
    rw [memB_cons] at h
    have hlen : (x' ++ btick :: btick :: btick :: rest).length ≥ 3 := by
      simp; omega
    rcases hx : x' ++ btick :: btick :: btick :: rest with _ | ⟨x1, _ | ⟨x2, x3⟩⟩
    · rw [hx] at hlen; simp at hlen
    · rw [hx] at hlen; simp at hlen
    · rw [List.cons_append, hx, takeToFence,
        if_neg (fun hh => absurd hh.1 h.1), ← hx, ih h.2]
      rfl

theorem scanList_append (x y : List Char) (st st' : Nat × SMode)
    (h : scanList x st = some st') :
    scanList (x ++ y) st = scanList y st' := by
  induction x generalizing st with
  | nil =>
    rw [scanList] at h
    cases h
    rfl
  | cons c rest ih =>
    cases hs : sstep st c with
    | none => simp only [scanList, hs] at h; cases h
    | some st2 =>
      simp only [scanList, hs] at h
      rw [List.cons_append]
      simp only [scanList, hs]
      exact ih st2 h

theorem scanOb_of_scanList (x y : List Char) (st st' : Nat × SMode) (k : Nat)
    (h : scanList x st = some st') :
    scanOb (x ++ y) st k = scanOb y st' (k + x.length) := by
  induction x generalizing st k with
  | nil =>
    rw [scanList] at h
    cases h
    simp
  | cons c rest ih =>
    cases hs : sstep st c with
    | none => simp only [scanList, hs] at h; cases h
    | some st2 =>
      simp only [scanList, hs] at h
      rw [List.cons_append]
      simp only [scanOb, hs]
      rw [ih st2 (k + 1) h]
      congr 1
      simp
      omega

theorem scanOb_extend (x y : List Char) (st : Nat × SMode) (k n : Nat)
    (h : scanOb x st k = some n) :
    scanOb (x ++ y) st k = some n := by
  induction x generalizing st k with
  | nil => rw [scanOb] at h; cases h
  | cons c rest ih =>
    cases hs : sstep st c with
    | none =>
      simp only [scanOb, hs] at h
      rw [List.cons_append]
      simp only [scanOb, hs]
      exact h
    | some st2 =>
      simp only [scanOb, hs] at h
      rw [List.cons_append]
      simp only [scanOb, hs]
      exact ih st2 (k + 1) h

theorem sstep_none_char (st : Nat × SMode) (c : Char)
    (h : sstep st c = none) : c = cbr := by
  rcases st with ⟨d, m⟩
  cases m with
  | norm =>
    rw [sstep] at h
    by_cases h1 : c = qt
    · rw [if_pos h1] at h; cases h
    · rw [if_neg h1] at h
      by_cases h2 : c = obr
      · rw [if_pos h2] at h; cases h
      · rw [if_neg h2] at h
        by_cases h3 : c = cbr
        · exact h3
        · rw [if_neg h3] at h; cases h
  | instr =>
    rw [sstep] at h
    by_cases h1 : c = bslash
    · rw [if_pos h1] at h; cases h
    · rw [if_neg h1] at h
      by_cases h2 : c = qt
      · rw [if_pos h2] at h; cases h
      · rw [if_neg h2] at h; cases h
  | esc => rw [sstep] at h; cases h

theorem scanOb_done_shape (l : List Char) (st : Nat × SMode) (k n : Nat)
    (h : scanOb l st k = some n) :
    ∃ x y, l = x ++ cbr :: y ∧ n = k + x.length + 1 := by
  induction l generalizing st k with
  | nil => rw [scanOb] at h; cases h
  | cons c rest ih =>
    cases hs : sstep st c with
    | none =>
      simp only [scanOb, hs] at h
      cases h
      exact ⟨[], rest, by rw [sstep_none_char st c hs]; simp, by simp⟩
    | some st2 =>
      simp only [scanOb, hs] at h
      obtain ⟨x, y, hxy, hn⟩ := ih st2 (k + 1) h
      exact ⟨c :: x, y, by rw [hxy]; simp, by rw [hn]; simp; omega⟩

theorem sstep_norm (d : Nat) (c : Char) :
    sstep (d, SMode.norm) c =
      if c = qt then some (d, SMode.instr)
      else if c = obr then some (d + 1, SMode.norm)
      else if c = cbr then (if d ≤ 1 then none else some (d - 1, SMode.norm))
      else some (d, SMode.norm) := rfl

theorem sstep_instr (d : Nat) (c : Char) :
    sstep (d, SMode.instr) c =
      if c = bslash then some (d, SMode.esc)
      else if c = qt then some (d, SMode.norm)
      else some (d, SMode.instr) := rfl

theorem sstep_esc (d : Nat) (c : Char) :
    sstep (d, SMode.esc) c = some (d, SMode.instr) := rfl

theorem scanList_cons (c : Char) (rest : List Char) (st : Nat × SMode) :
    scanList (c :: rest) st =
      match sstep st c with
      | none => none
      | some st2 => scanList rest st2 := rfl

theorem scanList_escape (s : List Char) (d : Nat) :
    scanList (escapeStr s) (d, SMode.instr) = some (d, SMode.instr) := by
  induction s with
  | nil => rfl
  | cons c rest ih =>
    by_cases hq : c = qt
    · subst hq
      exact ih
    · by_cases hb : c = bslash
      · subst hb
        exact ih
      · rw [show escapeStr (c :: rest) = c :: escapeStr rest from by
          rw [escapeStr, if_neg hq, if_neg hb]]
        rw [scanList_cons, sstep_instr, if_neg hb, if_neg hq]
        exact ih

theorem scanList_plain (t : List Char) (d : Nat)
    (h : ∀ c ∈ t, c ≠ qt ∧ c ≠ obr ∧ c ≠ cbr) :
    scanList t (d, SMode.norm) = some (d, SMode.norm) := by
  induction t with
  | nil => rfl
  | cons c rest ih =>
    obtain ⟨h1, h2, h3⟩ := h c (List.mem_cons_self c rest)
    rw [scanList_cons, sstep_norm, if_neg h1, if_neg h2, if_neg h3]
    exact ih (fun x hx => h x (List.mem_cons_of_mem c hx))

theorem isNumChar_safe (c : Char) (h : isNumChar c = true) :
    c ≠ qt ∧ c ≠ obr ∧ c ≠ cbr := by
  refine ⟨?_, ?_, ?_⟩ <;> rintro rfl <;> exact absurd h (by decide)

theorem scanList_cons_some (c : Char) (rest : List Char)
    (st st2 : Nat × SMode) (h : sstep st c = some st2) :
    scanList (c :: rest) st = scanList rest st2 := by
  rw [scanList_cons, h]

mutual

theorem scanSer_val (v : Json) (hwf : wfJ v = true) (d : Nat) (hd : 1 ≤ d) :
    scanList (serialize v) (d, SMode.norm) = some (d, SMode.norm) := by
  cases v with
  | null => rfl
  | bool b => cases b <;> rfl
  | num t =>
    rw [show serialize (Json.num t) = t from rfl]
    apply scanList_plain
    intro c hc
    apply isNumChar_safe
    rw [wfJ] at hwf
    cases t with
    | nil => cases hwf
    | cons a rest =>
      rw [numOk, Bool.and_eq_true] at hwf
      exact List.all_eq_true.mp hwf.2 c hc
  | str s =>
    have hser : serialize (Json.str s) = qt :: (escapeStr s ++ [qt]) := by
      rw [serialize]; simp
    rw [hser]
    rw [scanList_cons_some _ _ _ _ (by rw [sstep_norm, if_pos rfl])]
    rw [scanList_append _ _ _ _ (scanList_escape s d)]
    rfl
  | arr xs =>
    have hser : serialize (Json.arr xs) = '[' :: (serItems xs ++ [']']) := by
      rw [serialize]; simp
    rw [hser]
    rw [scanList_cons_some _ _ _ _
      (by rw [sstep_norm, if_neg (by decide), if_neg (by decide),
        if_neg (by decide)])]
    rw [wfJ] at hwf
    rw [scanList_append _ _ _ _ (scanSer_items xs hwf d hd)]
    rfl
  | obj ms =>
    have hser : serialize (Json.obj ms) = obr :: (serMembers ms ++ [cbr]) := by
      rw [serialize]; simp
    rw [hser]
    rw [scanList_cons_some _ _ _ _
      (by rw [sstep_norm, if_neg (by decide), if_pos rfl])]
    rw [wfJ] at hwf
    rw [scanList_append _ _ _ _ (scanSer_members ms hwf (d + 1) (by omega))]
    rw [scanList_cons_some _ _ _ _
      (by rw [sstep_norm, if_neg (by decide), if_neg (by decide),
        if_pos rfl, if_neg (by omega)])]
    have h2 : d + 1 - 1 = d := by omega
    rw [h2]
    rfl

theorem scanSer_items (xs : JArr) (hwf : wfA xs = true) (d : Nat) (hd : 1 ≤ d) :
    scanList (serItems xs) (d, SMode.norm) = some (d, SMode.norm) := by
  cases xs with
  | nil => rfl
  | cons v tl =>
    rw [wfA, Bool.and_eq_true] at hwf
    cases tl with
    | nil =>
      rw [show serItems (JArr.cons v JArr.nil) = serialize v from by
        simp [serItems]]
      exact scanSer_val v hwf.1 d hd
    | cons w tl2 =>
      rw [show serItems (JArr.cons v (JArr.cons w tl2)) =
          serialize v ++ ',' :: serItems (JArr.cons w tl2) from by
        simp [serItems]]
      rw [scanList_append _ _ _ _ (scanSer_val v hwf.1 d hd)]
      rw [scanList_cons_some _ _ _ _
        (by rw [sstep_norm, if_neg (by decide), if_neg (by decide),
          if_neg (by decide)])]
      exact scanSer_items (JArr.cons w tl2) hwf.2 d hd

theorem scanSer_members (ms : JMembers) (hwf : wfM ms = true) (d : Nat)
    (hd : 1 ≤ d) :
    scanList (serMembers ms) (d, SMode.norm) = some (d, SMode.norm) := by
  cases ms with
  | nil => rfl
  | cons k v tl =>
    rw [wfM, Bool.and_eq_true] at hwf
    have hkey : scanList (qt :: (escapeStr k ++ qt :: ':' :: serialize v))
        (d, SMode.norm) = some (d, SMode.norm) := by
      rw [scanList_cons_some _ _ _ _ (by rw [sstep_norm, if_pos rfl])]
      rw [scanList_append _ _ _ _ (scanList_escape k d)]
      rw [scanList_cons_some _ _ _ _
        (by rw [sstep_instr, if_neg (by decide), if_pos rfl])]
      rw [scanList_cons_some _ _ _ _
        (by rw [sstep_norm, if_neg (by decide), if_neg (by decide),
          if_neg (by decide)])]
      exact scanSer_val v hwf.1 d hd
    cases tl with
    | nil =>
      rw [show serMembers (JMembers.cons k v JMembers.nil) =
          qt :: (escapeStr k ++ qt :: ':' :: serialize v) from by
        simp [serMembers]]
      exact hkey
    | cons k2 v2 tl2 =>
      rw [show serMembers (JMembers.cons k v (JMembers.cons k2 v2 tl2)) =
          (qt :: (escapeStr k ++ qt :: ':' :: serialize v)) ++
            ',' :: serMembers (JMembers.cons k2 v2 tl2) from by
        simp [serMembers]]
      rw [scanList_append _ _ _ _ hkey]
      rw [scanList_cons_some _ _ _ _
        (by rw [sstep_norm, if_neg (by decide), if_neg (by decide),
          if_neg (by decide)])]
      exact scanSer_members (JMembers.cons k2 v2 tl2) hwf.2 d hd

end

theorem bslash_ne_qt : bslash ≠ qt := by decide

theorem bslash_ne_u : bslash ≠ 'u' := by decide

theorem qt_ne_u : qt ≠ 'u' := by decide

theorem decodeEsc_qt : decodeEsc qt = some qt := by decide

theorem decodeEsc_bslash : decodeEsc bslash = some bslash := by decide

theorem psb_close (t : List Char) : parseStrBody (qt :: t) = some ([], t) := by
  rw [parseStrBody.eq_def]
  simp

theorem psb_esc_qt (t : List Char) :
    parseStrBody (bslash :: qt :: t) =
      (parseStrBody t).map (fun p => (qt :: p.1, p.2)) := by
  rw [parseStrBody.eq_def]
  simp [bslash_ne_qt, qt_ne_u, decodeEsc_qt]

theorem psb_esc_bslash (t : List Char) :
    parseStrBody (bslash :: bslash :: t) =
      (parseStrBody t).map (fun p => (bslash :: p.1, p.2)) := by
  rw [parseStrBody.eq_def]
  simp [bslash_ne_qt, bslash_ne_u, decodeEsc_bslash]

theorem psb_plain (c : Char) (t : List Char) (h1 : c ≠ qt) (h2 : c ≠ bslash) :
    parseStrBody (c :: t) =
      (parseStrBody t).map (fun p => (c :: p.1, p.2)) := by
  rw [parseStrBody.eq_def]
  simp [h1, h2]

theorem parseStrBody_escape (s : List Char) (rest : List Char) :
    parseStrBody (escapeStr s ++ qt :: rest) = some (s, rest) := by
  induction s with
  | nil =>
    rw [show escapeStr [] = [] from rfl, List.nil_append, psb_close]
  | cons c s' ih =>
    by_cases hq : c = qt
    · subst hq
      rw [show escapeStr (qt :: s') = bslash :: qt :: escapeStr s' from by
        rw [escapeStr, if_pos rfl]]
      rw [List.cons_append, List.cons_append, psb_esc_qt, ih]
      rfl
    · by_cases hb : c = bslash
      · subst hb
        rw [show escapeStr (bslash :: s') = bslash :: bslash :: escapeStr s' from by
          rw [escapeStr, if_neg bslash_ne_qt, if_pos rfl]]
        rw [List.cons_append, List.cons_append, psb_esc_bslash, ih]
        rfl
      · rw [show escapeStr (c :: s') = c :: escapeStr s' from by
          rw [escapeStr, if_neg hq, if_neg hb]]
        rw [List.cons_append, psb_plain c _ hq hb, ih]
        rfl

theorem lexNum_concat (t r : List Char) (ht : t.all isNumChar = true)
    (hr : stopOk r = true) : lexNum (t ++ r) = (t, r) := by
  induction t with
  | nil =>
    cases r with
    | nil => rfl
    | cons c r' =>
      rw [List.nil_append, lexNum]
      rw [stopOk, Bool.not_eq_true'] at hr
      rw [hr]
      simp
  | cons c t' ih =>
    rw [List.all_cons, Bool.and_eq_true] at ht
    rw [List.cons_append, lexNum, if_pos ht.1, ih ht.2]

theorem parseVal_null (f : Nat) (r : List Char) :
    parseVal (f + 1) ('n' :: 'u' :: 'l' :: 'l' :: r) = some (Json.null, r) := rfl

theorem parseVal_true (f : Nat) (r : List Char) :
    parseVal (f + 1) ('t' :: 'r' :: 'u' :: 'e' :: r) =
      some (Json.bool true, r) := rfl

theorem parseVal_false (f : Nat) (r : List Char) :
    parseVal (f + 1) ('f' :: 'a' :: 'l' :: 's' :: 'e' :: r) =
      some (Json.bool false, r) := rfl

theorem parseVal_str (f : Nat) (t : List Char) :
    parseVal (f + 1) (qt :: t) =
      match parseStrBody t with
      | some (s, r) => some (Json.str s, r)
      | none => none := rfl

theorem parseVal_obr (f : Nat) (t : List Char) :
    parseVal (f + 1) (obr :: t) =
      match dropWS t with
      | d :: rest2 =>
        if d = cbr then some (Json.obj JMembers.nil, rest2)
        else
          match parseMembers f (d :: rest2) with
          | some (ms, r) => some (Json.obj ms, r)
          | none => none
      | [] => none := rfl

theorem parseVal_arr (f : Nat) (t : List Char) :
    parseVal (f + 1) ('[' :: t) =
      match dropWS t with
      | d :: rest2 =>
        if d = ']' then some (Json.arr JArr.nil, rest2)
        else
          match parseItems f (d :: rest2) with
          | some (xs, r) => some (Json.arr xs, r)
          | none => none
      | [] => none := rfl

theorem parseMembers_qt (f : Nat) (t : List Char) :
    parseMembers (f + 1) (qt :: t) =
      match parseStrBody t with
      | some (key, r1) =>
        match dropWS r1 with
        | d :: r2 =>
          if d = ':' then
            match parseVal f r2 with
            | some (v, r3) =>
              match dropWS r3 with
              | e :: r4 =>
                if e = ',' then
                  match parseMembers f r4 with
                  | some (ms, r) => some (JMembers.cons key v ms, r)
                  | none => none
                else if e = cbr then some (JMembers.cons key v JMembers.nil, r4)
                else none
              | [] => none
            | none => none
          else none
        | [] => none
      | none => none := rfl

theorem parseItems_succ (f : Nat) (l : List Char) :
    parseItems (f + 1) l =
      match parseVal f l with
      | some (v, r1) =>
        match dropWS r1 with
        | e :: r2 =>
          if e = ',' then
            match parseItems f r2 with
            | some (xs, r) => some (JArr.cons v xs, r)
            | none => none
          else if e = ']' then some (JArr.cons v JArr.nil, r2)
          else none
        | [] => none
      | none => none := rfl

theorem isDigit_props (c : Char) (h : c.isDigit = true) :
    isWS c = false ∧ c ≠ obr ∧ c ≠ '[' ∧ c ≠ qt ∧ c ≠ 't' ∧ c ≠ 'f' ∧
      c ≠ 'n' ∧ c ≠ ']' ∧ c ≠ cbr ∧ c ≠ ',' := by
  refine ⟨?_, ?_, ?_, ?_, ?_, ?_, ?_, ?_, ?_, ?_⟩
  · by_contra hw
    rw [Bool.not_eq_false] at hw
    have h4 : c = ' ' ∨ c = '\n' ∨ c = '\t' ∨ c = '\r' := by
      simp only [isWS, Bool.or_eq_true, decide_eq_true_eq] at hw
      tauto
    rcases h4 with rfl | rfl | rfl | rfl <;> exact absurd h (by decide)
  all_goals rintro rfl
  all_goals exact absurd h (by decide)

theorem dropWS_nonws (c : Char) (t : List Char) (h : isWS c = false) :
    dropWS (c :: t) = c :: t := by
  simp [dropWS, h]

theorem serialize_head (v : Json) (hwf : wfJ v = true) :
    ∃ c t, serialize v = c :: t ∧ isWS c = false ∧ c ≠ ']' ∧ c ≠ cbr ∧
      c ≠ ',' := by
  cases v with
  | null => exact ⟨'n', strL ("ull"), rfl, by decide, by decide, by decide, by decide⟩
  | bool b =>
    cases b with
    | true => exact ⟨'t', strL ("rue"), rfl, by decide, by decide, by decide, by decide⟩
    | false =>
      exact ⟨'f', strL ("alse"), rfl, by decide, by decide, by decide, by decide⟩
  | num t =>
    rw [wfJ] at hwf
    cases t with
    | nil => simp [numOk] at hwf
    | cons c t' =>
      rw [numOk, Bool.and_eq_true] at hwf
      have hd : c.isDigit = true ∨ c = '-' := by
        have := hwf.1
        simp only [Bool.or_eq_true, decide_eq_true_eq] at this
        tauto
      refine ⟨c, t', rfl, ?_, ?_, ?_, ?_⟩
      · rcases hd with h | rfl
        · exact (isDigit_props c h).1
        · decide
      · rcases hd with h | rfl
        · exact (isDigit_props c h).2.2.2.2.2.2.2.1
        · decide
      · rcases hd with h | rfl
        · exact (isDigit_props c h).2.2.2.2.2.2.2.2.1
        · decide
      · rcases hd with h | rfl
        · exact (isDigit_props c h).2.2.2.2.2.2.2.2.2
        · decide
  | str s =>
    exact ⟨qt, escapeStr s ++ [qt],
      by rw [serialize]; simp, by decide, by decide, by decide, by decide⟩
  | arr xs =>
    exact ⟨'[', serItems xs ++ [']'],
      by rw [serialize]; simp, by decide, by decide, by decide, by decide⟩
  | obj ms =>
    exact ⟨obr, serMembers ms ++ [cbr],
      by rw [serialize]; simp, by decide, by decide, by decide, by decide⟩

theorem serItems_cons_head (v : Json) (tl : JArr) (hwf : wfJ v = true)
    (suffix : List Char) :
    ∃ c Y, serItems (JArr.cons v tl) ++ suffix = c :: Y ∧ isWS c = false ∧
      c ≠ ']' := by
  obtain ⟨c, t, hser, h1, h2, h3, h4⟩ := serialize_head v hwf
  cases tl with
  | nil =>
    refine ⟨c, t ++ suffix, ?_, h1, h2⟩
    rw [show serItems (JArr.cons v JArr.nil) = serialize v from by
      simp [serItems], hser]
    simp
  | cons w tl2 =>
    refine ⟨c, t ++ ',' :: serItems (JArr.cons w tl2) ++ suffix, ?_, h1, h2⟩
    rw [show serItems (JArr.cons v (JArr.cons w tl2)) =
        serialize v ++ ',' :: serItems (JArr.cons w tl2) from by
      simp [serItems], hser]
    simp

theorem parseVal_num (f : Nat) (c : Char) (t : List Char)
    (hdig : c.isDigit = true ∨ c = '-') :
    parseVal (f + 1) (c :: t) =
      some (Json.num (lexNum (c :: t)).1, (lexNum (c :: t)).2) := by
  rcases hdig with h | rfl
  · obtain ⟨hw, h1, h2, h3, h4, h5, h6, _, _, _⟩ := isDigit_props c h
    rw [parseVal.eq_def]
    simp only [Nat.add_one]
    rw [show dropWS (c :: t) = c :: t from dropWS_nonws c t hw]
    simp [h1, h2, h3, h4, h5, h6, h]
  · rfl

theorem parseVal_obj_nil (f : Nat) (r : List Char) :
    parseVal (f + 1) (obr :: cbr :: r) = some (Json.obj JMembers.nil, r) := rfl

theorem parseVal_arr_nil (f : Nat) (r : List Char) :
    parseVal (f + 1) ('[' :: ']' :: r) = some (Json.arr JArr.nil, r) := rfl

theorem parseVal_obr_qt (f : Nat) (y : List Char) :
    parseVal (f + 1) (obr :: qt :: y) =
      match parseMembers f (qt :: y) with
      | some (ms, r) => some (Json.obj ms, r)
      | none => none := rfl

theorem parseVal_arr_cons (f : Nat) (d : Char) (t : List Char)
    (hws : isWS d = false) (hd : d ≠ ']') :
    parseVal (f + 1) ('[' :: d :: t) =
      match parseItems f (d :: t) with
      | some (xs, r) => some (Json.arr xs, r)
      | none => none := by
  rw [parseVal_arr, dropWS_nonws d t hws]
  show (if d = ']' then some (Json.arr JArr.nil, t)
    else match parseItems f (d :: t) with
      | some (xs, r) => some (Json.arr xs, r)
      | none => none) = _
  rw [if_neg hd]

mutual

theorem rtV (v : Json) (hwf : wfJ v = true) (rest : List Char) (fuel : Nat)
    (hstop : stopOk rest = true)
    (hfuel : 2 * (serialize v).length ≤ fuel) :
    parseVal fuel (serialize v ++ rest) = some (v, rest) := by
  cases v with
  | null =>
    have hlen : (serialize Json.null).length = 4 := rfl
    obtain ⟨f, rfl⟩ : ∃ f, fuel = f + 1 := ⟨fuel - 1, by omega⟩
    exact parseVal_null f rest
  | bool b =>
    cases b with
    | true =>
      have hlen : (serialize (Json.bool true)).length = 4 := rfl
      obtain ⟨f, rfl⟩ : ∃ f, fuel = f + 1 := ⟨fuel - 1, by omega⟩
      exact parseVal_true f rest
    | false =>
      have hlen : (serialize (Json.bool false)).length = 5 := rfl
      obtain ⟨f, rfl⟩ : ∃ f, fuel = f + 1 := ⟨fuel - 1, by omega⟩
      exact parseVal_false f rest
  | num t =>
    rw [wfJ] at hwf
    cases t with
    | nil => simp [numOk] at hwf
    | cons c t' =>
      rw [numOk, Bool.and_eq_true] at hwf
      have hlen : (serialize (Json.num (c :: t'))).length = t'.length + 1 := by
        rw [show serialize (Json.num (c :: t')) = c :: t' from rfl]
        simp
      obtain ⟨f, rfl⟩ : ∃ f, fuel = f + 1 := ⟨fuel - 1, by omega⟩
      have hdig : c.isDigit = true ∨ c = '-' := by
        have h1 := hwf.1
        simp only [Bool.or_eq_true, decide_eq_true_eq] at h1
        tauto
      rw [show serialize (Json.num (c :: t')) ++ rest = c :: (t' ++ rest) from by
        rw [show serialize (Json.num (c :: t')) = c :: t' from rfl]; simp]
      rw [parseVal_num f c _ hdig]
      rw [show c :: (t' ++ rest) = (c :: t') ++ rest from rfl,
        lexNum_concat (c :: t') rest hwf.2 hstop]
  | str s =>
    have hlen : (serialize (Json.str s)).length = (escapeStr s).length + 2 := by
      rw [show serialize (Json.str s) = (qt :: escapeStr s) ++ [qt] from by
        rw [serialize]]
      simp
    obtain ⟨f, rfl⟩ : ∃ f, fuel = f + 1 := ⟨fuel - 1, by omega⟩
    rw [show serialize (Json.str s) ++ rest =
        qt :: (escapeStr s ++ qt :: rest) from by
      rw [show serialize (Json.str s) = (qt :: escapeStr s) ++ [qt] from by
        rw [serialize]]
      simp]
    rw [parseVal_str, parseStrBody_escape]
  | arr xs =>
    rw [wfJ] at hwf
    cases xs with
    | nil =>
      have hlen : (serialize (Json.arr JArr.nil)).length = 2 := rfl
      obtain ⟨f, rfl⟩ : ∃ f, fuel = f + 1 := ⟨fuel - 1, by omega⟩
      exact parseVal_arr_nil f rest
    | cons v tl =>
      have hser : serialize (Json.arr (JArr.cons v tl)) =
          '[' :: (serItems (JArr.cons v tl) ++ [']']) := by
        rw [serialize]; simp
      have hlen : (serialize (Json.arr (JArr.cons v tl))).length =
          (serItems (JArr.cons v tl)).length + 2 := by
        rw [hser]; simp
      obtain ⟨f, rfl⟩ : ∃ f, fuel = f + 1 := ⟨fuel - 1, by omega⟩
      rw [wfA, Bool.and_eq_true] at hwf
      obtain ⟨c, Y, hXc, hcw, hc1⟩ :=
        serItems_cons_head v tl hwf.1 (']' :: rest)
      rw [show serialize (Json.arr (JArr.cons v tl)) ++ rest =
          '[' :: (serItems (JArr.cons v tl) ++ ']' :: rest) from by
        rw [hser]; simp]
      rw [hXc, parseVal_arr_cons f c Y hcw hc1, ← hXc]
      rw [rtA (JArr.cons v tl) (by simp)
        (by rw [wfA, Bool.and_eq_true]; exact hwf) rest f (by omega)]
  | obj ms =>
    rw [wfJ] at hwf
    cases ms with
    | nil =>
      have hlen : (serialize (Json.obj JMembers.nil)).length = 2 := rfl
      obtain ⟨f, rfl⟩ : ∃ f, fuel = f + 1 := ⟨fuel - 1, by omega⟩
      exact parseVal_obj_nil f rest
    | cons k v tl =>
      have hser : serialize (Json.obj (JMembers.cons k v tl)) =
          obr :: (serMembers (JMembers.cons k v tl) ++ [cbr]) := by
        rw [serialize]; simp
      have hlen : (serialize (Json.obj (JMembers.cons k v tl))).length =
          (serMembers (JMembers.cons k v tl)).length + 2 := by
        rw [hser]; simp
      obtain ⟨f, rfl⟩ : ∃ f, fuel = f + 1 := ⟨fuel - 1, by omega⟩
      have hMB : ∃ Y, serMembers (JMembers.cons k v tl) ++ cbr :: rest =
          qt :: Y := by
        cases tl with
        | nil =>
          exact ⟨escapeStr k ++ qt :: ':' :: (serialize v ++ cbr :: rest), by
            simp [serMembers]⟩
        | cons k2 v2 tl2 =>
          exact ⟨escapeStr k ++ qt :: ':' :: (serialize v ++
            ',' :: (serMembers (JMembers.cons k2 v2 tl2) ++ cbr :: rest)), by
            simp [serMembers]⟩
      obtain ⟨Y, hY⟩ := hMB
      rw [show serialize (Json.obj (JMembers.cons k v tl)) ++ rest =
          obr :: (serMembers (JMembers.cons k v tl) ++ cbr :: rest) from by
        rw [hser]; simp]
      rw [hY, parseVal_obr_qt, ← hY]
      rw [rtM (JMembers.cons k v tl) (by simp) hwf rest f (by omega)]
  termination_by sizeOf v

theorem rtA (xs : JArr) (hne : xs ≠ JArr.nil) (hwf : wfA xs = true)
    (rest : List Char) (fuel : Nat)
    (hfuel : 2 * (serItems xs).length + 1 ≤ fuel) :
    parseItems fuel (serItems xs ++ ']' :: rest) = some (xs, rest) := by
  cases xs with
  | nil => exact absurd rfl hne
  | cons v tl =>
    rw [wfA, Bool.and_eq_true] at hwf
    obtain ⟨f, rfl⟩ : ∃ f, fuel = f + 1 := ⟨fuel - 1, by omega⟩
    cases tl with
    | nil =>
      have hlen : (serItems (JArr.cons v JArr.nil)).length =
          (serialize v).length := by
        rw [show serItems (JArr.cons v JArr.nil) = serialize v from by
          simp [serItems]]
      rw [show serItems (JArr.cons v JArr.nil) ++ ']' :: rest =
          serialize v ++ ']' :: rest from by simp [serItems]]
      rw [parseItems_succ,
        rtV v hwf.1 (']' :: rest) f rfl (by omega)]
      rfl
    | cons w tl2 =>
      have hlen : (serItems (JArr.cons v (JArr.cons w tl2))).length =
          (serialize v).length +
            (serItems (JArr.cons w tl2)).length + 1 := by
        rw [show serItems (JArr.cons v (JArr.cons w tl2)) =
            serialize v ++ ',' :: serItems (JArr.cons w tl2) from by
          simp [serItems]]
        simp
        omega
      rw [show serItems (JArr.cons v (JArr.cons w tl2)) ++ ']' :: rest =
          serialize v ++
            ',' :: (serItems (JArr.cons w tl2) ++ ']' :: rest) from by
        simp [serItems]]
      rw [parseItems_succ,
        rtV v hwf.1 (',' :: (serItems (JArr.cons w tl2) ++ ']' :: rest)) f
          rfl (by omega)]
      show (match parseItems f (serItems (JArr.cons w tl2) ++ ']' :: rest) with
        | some (xs, r) => some (JArr.cons v xs, r)
        | none => none) = _
      rw [rtA (JArr.cons w tl2) (by simp) hwf.2 rest f (by omega)]
  termination_by sizeOf xs

theorem rtM (ms : JMembers) (hne : ms ≠ JMembers.nil) (hwf : wfM ms = true)
    (rest : List Char) (fuel : Nat)
    (hfuel : 2 * (serMembers ms).length + 1 ≤ fuel) :
    parseMembers fuel (serMembers ms ++ cbr :: rest) = some (ms, rest) := by
  cases ms with
  | nil => exact absurd rfl hne
  | cons k v tl =>
    rw [wfM, Bool.and_eq_true] at hwf
    obtain ⟨f, rfl⟩ : ∃ f, fuel = f + 1 := ⟨fuel - 1, by omega⟩
    cases tl with
    | nil =>
      have hlen : (serMembers (JMembers.cons k v JMembers.nil)).length =
          (escapeStr k).length + (serialize v).length + 3 := by
        rw [show serMembers (JMembers.cons k v JMembers.nil) =
            qt :: (escapeStr k ++ qt :: ':' :: serialize v) from by
          simp [serMembers]]
        simp
        omega
      rw [show serMembers (JMembers.cons k v JMembers.nil) ++ cbr :: rest =
          qt :: (escapeStr k ++ qt :: ':' :: (serialize v ++ cbr :: rest))
          from by simp [serMembers]]
      rw [parseMembers_qt, parseStrBody_escape]
      show (match parseVal f (serialize v ++ cbr :: rest) with
        | some (v, r3) =>
          match dropWS r3 with
          | e :: r4 =>
            if e = ',' then
              match parseMembers f r4 with
              | some (ms, r) => some (JMembers.cons k v ms, r)
              | none => none
            else if e = cbr then some (JMembers.cons k v JMembers.nil, r4)
            else none
          | [] => none
        | none => none) = _
      rw [rtV v hwf.1 (cbr :: rest) f rfl (by omega)]
      rfl
    | cons k2 v2 tl2 =>
      have hlen : (serMembers (JMembers.cons k v (JMembers.cons k2 v2 tl2))).length =
          (escapeStr k).length + (serialize v).length +
            (serMembers (JMembers.cons k2 v2 tl2)).length + 4 := by
        rw [show serMembers (JMembers.cons k v (JMembers.cons k2 v2 tl2)) =
            (qt :: (escapeStr k ++ qt :: ':' :: serialize v)) ++
              ',' :: serMembers (JMembers.cons k2 v2 tl2) from by
          simp [serMembers]]
        simp
        omega
      rw [show serMembers (JMembers.cons k v (JMembers.cons k2 v2 tl2)) ++
          cbr :: rest =
          qt :: (escapeStr k ++ qt :: ':' :: (serialize v ++
            ',' :: (serMembers (JMembers.cons k2 v2 tl2) ++ cbr :: rest)))
          from by simp [serMembers]]
      rw [parseMembers_qt, parseStrBody_escape]
      show (match parseVal f (serialize v ++
          ',' :: (serMembers (JMembers.cons k2 v2 tl2) ++ cbr :: rest)) with
        | some (v, r3) =>
          match dropWS r3 with
          | e :: r4 =>
            if e = ',' then
              match parseMembers f r4 with
              | some (ms, r) => some (JMembers.cons k v ms, r)
              | none => none
            else if e = cbr then some (JMembers.cons k v JMembers.nil, r4)
            else none
          | [] => none
        | none => none) = _
      rw [rtV v hwf.1 (',' :: (serMembers (JMembers.cons k2 v2 tl2) ++
        cbr :: rest)) f rfl (by omega)]
      show (match parseMembers f
          (serMembers (JMembers.cons k2 v2 tl2) ++ cbr :: rest) with
        | some (ms, r) => some (JMembers.cons k v ms, r)
        | none => none) = _
      rw [rtM (JMembers.cons k2 v2 tl2) (by simp) hwf.2 rest f (by omega)]
  termination_by sizeOf ms

end

theorem decodeJson_serialize (v : Json) (hwf : wfJ v = true) :
    decodeJson (serialize v) = some v := by
  have h1 : parseVal (2 * (serialize v).length + 2) (serialize v ++ []) =
      some (v, []) := rtV v hwf [] _ rfl (by omega)
  rw [List.append_nil] at h1
  unfold decodeJson
  rw [h1]
  rfl

theorem isNumChar_of_digit (c : Char) (h : c.isDigit = true) :
    isNumChar c = true := by
  simp [isNumChar, h]

theorem lexNum_all (t : List Char) : ((lexNum t).1).all isNumChar = true := by
  induction t with
  | nil => rfl
  | cons c rest ih =>
    rw [lexNum]
    by_cases h : isNumChar c = true
    · simp only [if_pos h, List.all_cons, Bool.and_eq_true]
      exact ⟨h, ih⟩
    · simp only [h, Bool.false_eq_true, if_false]
      rfl

theorem lexNum_wf (c : Char) (t : List Char) (h : c.isDigit = true ∨ c = '-') :
    numOk (lexNum (c :: t)).1 = true := by
  have hnum : isNumChar c = true := by
    rcases h with h | rfl
    · exact isNumChar_of_digit c h
    · decide
  rw [lexNum, if_pos hnum]
  rw [numOk, Bool.and_eq_true]
  constructor
  · rcases h with h | rfl
    · simp [h]
    · decide
  · rw [List.all_cons, Bool.and_eq_true]
    exact ⟨hnum, lexNum_all t⟩

theorem parseVal_succ (f : Nat) (l : List Char) :
    parseVal (f + 1) l =
      match dropWS l with
      | [] => none
      | c :: rest =>
        if c = obr then
          match dropWS rest with
          | d :: rest2 =>
            if d = cbr then some (Json.obj JMembers.nil, rest2)
            else
              match parseMembers f (d :: rest2) with
              | some (ms, r) => some (Json.obj ms, r)
              | none => none
          | [] => none
        else if c = '[' then
          match dropWS rest with
          | d :: rest2 =>
            if d = ']' then some (Json.arr JArr.nil, rest2)
            else
              match parseItems f (d :: rest2) with
              | some (xs, r) => some (Json.arr xs, r)
              | none => none
          | [] => none
        else if c = qt then
          match parseStrBody rest with
          | some (s, r) => some (Json.str s, r)
          | none => none
        else if c = 't' then
          if hasPre (strL ("rue")) rest then some (Json.bool true, rest.drop 3)
          else none
        else if c = 'f' then
          if hasPre (strL ("alse")) rest then some (Json.bool false, rest.drop 4)
          else none
        else if c = 'n' then
          if hasPre (strL ("ull")) rest then some (Json.null, rest.drop 3)
          else none
        else if c.isDigit ∨ c = '-' then
          some (Json.num (lexNum (c :: rest)).1, (lexNum (c :: rest)).2)
        else none := rfl

theorem parseMembers_succ (f : Nat) (l : List Char) :
    parseMembers (f + 1) l =
      match dropWS l with
      | c :: rest =>
        if c = qt then
          match parseStrBody rest with
          | some (key, r1) =>
            match dropWS r1 with
            | d :: r2 =>
              if d = ':' then
                match parseVal f r2 with
                | some (v, r3) =>
                  match dropWS r3 with
                  | e :: r4 =>
                    if e = ',' then
                      match parseMembers f r4 with
                      | some (ms, r) => some (JMembers.cons key v ms, r)
                      | none => none
                    else if e = cbr then
                      some (JMembers.cons key v JMembers.nil, r4)
                    else none
                  | [] => none
                | none => none
              else none
            | [] => none
          | none => none
        else none
      | [] => none := rfl

theorem parseWF (fuel : Nat) :
    (∀ l v r, parseVal fuel l = some (v, r) → wfJ v = true) ∧
    (∀ l ms r, parseMembers fuel l = some (ms, r) → wfM ms = true) ∧
    (∀ l xs r, parseItems fuel l = some (xs, r) → wfA xs = true) := by
  induction fuel with
  | zero =>
    refine ⟨?_, ?_, ?_⟩ <;> intro l a r h <;> exact Option.noConfusion h
  | succ f ih =>
    obtain ⟨ihV, ihM, ihA⟩ := ih
    refine ⟨?_, ?_, ?_⟩
    · intro l v r h
      rw [parseVal_succ] at h
      repeat' split at h
      all_goals try exact Option.noConfusion h
      all_goals simp only [Option.some.injEq, Prod.mk.injEq] at h
      all_goals obtain ⟨rfl, rfl⟩ := h
      all_goals first
        | rfl
        | (rw [wfJ]
           first
            | exact ihM _ _ _ (by assumption)
            | exact ihA _ _ _ (by assumption)
            | exact lexNum_wf _ _ (by assumption))
    · intro l ms r h
      rw [parseMembers_succ] at h
      repeat' split at h
      all_goals try exact Option.noConfusion h
      all_goals simp only [Option.some.injEq, Prod.mk.injEq] at h
      all_goals obtain ⟨rfl, rfl⟩ := h
      all_goals rw [wfM, Bool.and_eq_true]
      all_goals refine ⟨ihV _ _ _ (by assumption), ?_⟩
      all_goals first
        | exact ihM _ _ _ (by assumption)
        | rfl
    · intro l xs r h
      rw [parseItems_succ] at h
      repeat' split at h
      all_goals try exact Option.noConfusion h
      all_goals simp only [Option.some.injEq, Prod.mk.injEq] at h
      all_goals obtain ⟨rfl, rfl⟩ := h
      all_goals rw [wfA, Bool.and_eq_true]
      all_goals refine ⟨ihV _ _ _ (by assumption), ?_⟩
      all_goals first
        | exact ihA _ _ _ (by assumption)
        | rfl

theorem decodeJson_wf (l : List Char) (v : Json) (h : decodeJson l = some v) :
    wfJ v = true := by
  unfold decodeJson at h
  split at h
  next v2 rest hp =>
    split at h
    · simp only [Option.some.injEq] at h
      subst h
      exact (parseWF (2 * l.length + 2)).1 l _ _ hp
    · exact Option.noConfusion h
  next => exact Option.noConfusion h

theorem stripBOM_of_all_ws (s : List Char) (h : s.all isWS = true) :
    stripBOM s = s := by
  cases s with
  | nil => rfl
  | cons c rest =>
    rw [List.all_cons, Bool.and_eq_true] at h
    rw [stripBOM, if_neg]
    intro hc
    rw [hc] at h
    exact absurd h.1 (by decide)

theorem extract_blank (s : List Char) (h : trimL (stripBOM s) = []) :
    extract_json_text (some s) = [] := by
  simp only [extract_json_text]
  rw [if_pos h]

theorem decode_candidate_trim_ne (s : List Char) (v : Json)
    (h : decodeJson (repair_common_json_issues (extract_json_text (some s))) =
      some v) : trimL s ≠ [] := by
  intro htrim
  have hall : s.all isWS = true := (trimL_eq_nil_iff s).mp htrim
  have hb : stripBOM s = s := stripBOM_of_all_ws s hall
  have hext : extract_json_text (some s) = [] := by
    apply extract_blank
    rw [hb]
    exact htrim
  rw [hext] at h
  exact Option.noConfusion h

theorem parse_response_decoded (s : List Char) (v : Json)
    (hdrift : looks_unrelated s = false)
    (hdec : decodeJson (repair_common_json_issues (extract_json_text (some s))) =
      some v) :
    parse_response (some s) = validateFields v := by
  have htrim : trimL s ≠ [] := decode_candidate_trim_ne s v hdec
  simp only [parse_response]
  rw [if_neg htrim, if_neg (by rw [hdrift]; exact Bool.false_ne_true), hdec]

theorem parse_response_drift (s : List Char) (hdrift : looks_unrelated s = true) :
    parse_response (some s) =
      ParseResult.failure FailCat.validationFailed validationMsg := by
  have htrim : trimL s ≠ [] := by
    intro h
    rw [looks_unrelated_trim_nil s h] at hdrift
    exact Bool.false_ne_true hdrift
  simp only [parse_response]
  rw [if_neg htrim, if_pos hdrift]

theorem validateFields_missing (v : Json) (hne : missingOf v ≠ []) :
    validateFields v =
      ParseResult.failure FailCat.missingFields (missingMsg (missingOf v)) := by
  simp only [validateFields]
  rw [if_neg (show ¬(List.filter (fun f => (getField v f).isNone)
    requiredFields = []) from hne)]
  rfl

theorem validateFields_drift (v : Json) (hall : missingOf v = [])
    (hdrift : (requiredFields.map (fieldValue v)).any looks_unrelated = true) :
    validateFields v =
      ParseResult.failure FailCat.validationFailed validationMsg := by
  simp only [validateFields]
  rw [if_pos (show List.filter (fun f => (getField v f).isNone)
    requiredFields = [] from hall)]
  rw [if_pos (show (List.map (fun f => coerceValue ((getField v f).getD
    Json.null)) requiredFields).any looks_unrelated = true from hdrift)]

theorem validateFields_success (v : Json) (hall : missingOf v = [])
    (hnod : (requiredFields.map (fieldValue v)).any looks_unrelated = false) :
    validateFields v =
      ParseResult.success (fieldValue v (strL ("core_trends")))
        (fieldValue v (strL ("sentiment_controversy")))
        (fieldValue v (strL ("signals")))
        (fieldValue v (strL ("rss_insights")))
        (fieldValue v (strL ("outlook_strategy"))) := by
  simp only [validateFields]
  rw [if_pos (show List.filter (fun f => (getField v f).isNone)
    requiredFields = [] from hall)]
  rw [if_neg (show ¬((List.map (fun f => coerceValue ((getField v f).getD
    Json.null)) requiredFields).any looks_unrelated = true) from by
    rw [show (List.map (fun f => coerceValue ((getField v f).getD
      Json.null)) requiredFields).any looks_unrelated = false from hnod]
    exact Bool.false_ne_true)]
  rfl

theorem validateFields_arr (xs : JArr) :
    validateFields (Json.arr xs) =
      ParseResult.failure FailCat.missingFields (missingMsg requiredFields) := rfl

/-- C5: a null, empty, or whitespace-only raw input yields the Failure
variant with category "empty response", returned as data. -/
theorem c5_empty_blank_null :
    parse_response none =
      ParseResult.failure FailCat.emptyResponse emptyMsg ∧
    ∀ s : List Char, s.all isWS = true →
      parse_response (some s) =
        ParseResult.failure FailCat.emptyResponse emptyMsg := by
  constructor
  · rfl
  · intro s h
    simp only [parse_response]
    rw [if_pos ((trimL_eq_nil_iff s).mpr h)]

/-- Witness for C5 at the whitespace-only input "   \n\t  " (the empty string
is the instance `[].all isWS`). -/
theorem c5_empty_blank_null_witness :
    (strL ("   \n\t  ")).all isWS = true ∧
    parse_response (some (strL ("   \n\t  "))) =
      ParseResult.failure FailCat.emptyResponse emptyMsg :=
  ⟨by decide, c5_empty_blank_null.2 (strL ("   \n\t  ")) (by decide)⟩

/-- C3: a drift marker in the raw response (case-insensitively), or in any of
the five coerced field values once all five fields are present, yields the
Failure variant with category "validation failed". -/
theorem c3_drift_validation_failed (s : List Char) :
    (looks_unrelated s = true →
      parse_response (some s) =
        ParseResult.failure FailCat.validationFailed validationMsg) ∧
    (∀ v : Json, looks_unrelated s = false →
      decodeJson (repair_common_json_issues (extract_json_text (some s))) =
        some v →
      missingOf v = [] →
      (requiredFields.map (fieldValue v)).any looks_unrelated = true →
      parse_response (some s) =
        ParseResult.failure FailCat.validationFailed validationMsg) := by
  constructor
  · exact parse_response_drift s
  · intro v h1 h2 h3 h4
    rw [parse_response_decoded s v h1 h2, validateFields_drift v h3 h4]

/-- Witness for C3: both detector sites produce the validation failure. -/
theorem c3_drift_validation_failed_witness :
    (looks_unrelated drfRaw = true ∧
      parse_response (some drfRaw) =
        ParseResult.failure FailCat.validationFailed validationMsg) ∧
    (looks_unrelated drfField = false ∧
      decodeJson (repair_common_json_issues (extract_json_text (some drfField))) =
        some drfFieldVal ∧
      missingOf drfFieldVal = [] ∧
      (requiredFields.map (fieldValue drfFieldVal)).any looks_unrelated = true ∧
      parse_response (some drfField) =
        ParseResult.failure FailCat.validationFailed validationMsg) :=
  ⟨⟨by decide, (c3_drift_validation_failed drfRaw).1 (by decide)⟩,
   ⟨by decide, rfl, by decide, by decide,
    (c3_drift_validation_failed drfField).2 drfFieldVal (by decide) rfl
      (by decide) (by decide)⟩⟩

/-- C2 counterexample: this input's extracted and repaired candidate decodes
as a top-level JSON array, yet `parse_response` fails with category
"validation failed" (the pre-parse drift check fires), not "missing
fields" as the claim states. -/
theorem c2_array_counterexample :
    decodeJson (repair_common_json_issues (extract_json_text
      (some arrDriftInput))) =
      some (Json.arr (JArr.cons (Json.str (strL ("config.yaml"))) JArr.nil)) ∧
    parse_response (some arrDriftInput) =
      ParseResult.failure FailCat.validationFailed validationMsg ∧
    FailCat.validationFailed ≠ FailCat.missingFields :=
  ⟨rfl, rfl, by decide⟩

/-- C2 (amended): for every raw input containing no drift marker whose
extracted and repaired candidate decodes as a top-level JSON array,
`parse_response` returns the Failure variant with category "missing fields"
reporting all five required field names. -/
theorem c2_array_missing_fields (s : List Char) (xs : JArr)
    (h1 : looks_unrelated s = false)
    (h2 : decodeJson (repair_common_json_issues (extract_json_text (some s))) =
      some (Json.arr xs)) :
    parse_response (some s) =
      ParseResult.failure FailCat.missingFields (missingMsg requiredFields) := by
  rw [parse_response_decoded s _ h1 h2, validateFields_arr]

/-- Witness for C2 at the drift-free top-level array input "[1,2]". -/
theorem c2_array_missing_fields_witness :
    looks_unrelated (strL ("[1,2]")) = false ∧
    decodeJson (repair_common_json_issues (extract_json_text
      (some (strL ("[1,2]"))))) =
      some (Json.arr (JArr.cons (Json.num (strL ("1")))
        (JArr.cons (Json.num (strL ("2"))) JArr.nil))) ∧
    parse_response (some (strL ("[1,2]"))) =
      ParseResult.failure FailCat.missingFields (missingMsg requiredFields) :=
  ⟨by decide, rfl,
   c2_array_missing_fields (strL ("[1,2]"))
     (JArr.cons (Json.num (strL ("1")))
       (JArr.cons (Json.num (strL ("2"))) JArr.nil)) (by decide) rfl⟩

theorem missingMsg_exact :
    ∀ sub ∈ requiredFields.sublists, sub ≠ [] →
      ∀ f ∈ requiredFields, (hasSub f (missingMsg sub) = true ↔ f ∈ sub) := by
  decide

/-- C4: when the decoded value lacks one or more required fields and no
earlier failure fired, `parse_response` fails with category "missing fields"
and a message that mentions exactly the missing field names: a required field
name occurs in the message iff it is missing. -/
theorem c4_missing_fields_exact (s : List Char) (v : Json)
    (h1 : looks_unrelated s = false)
    (h2 : decodeJson (repair_common_json_issues (extract_json_text (some s))) =
      some v)
    (h3 : missingOf v ≠ []) :
    parse_response (some s) =
      ParseResult.failure FailCat.missingFields (missingMsg (missingOf v)) ∧
    ∀ f ∈ requiredFields,
      (hasSub f (missingMsg (missingOf v)) = true ↔ f ∈ missingOf v) := by
  constructor
  · rw [parse_response_decoded s v h1 h2, validateFields_missing v h3]
  · have hsub : missingOf v ∈ requiredFields.sublists := by
      rw [List.mem_sublists]
      exact List.filter_sublist requiredFields
    exact missingMsg_exact (missingOf v) hsub h3

/-- Witness for C4 at an input missing exactly `signals`. -/
theorem c4_missing_fields_exact_witness :
    looks_unrelated missInput = false ∧
    decodeJson (repair_common_json_issues (extract_json_text
      (some missInput))) = some missVal ∧
    missingOf missVal = [strL ("signals")] ∧
    parse_response (some missInput) =
      ParseResult.failure FailCat.missingFields (missingMsg (missingOf missVal)) ∧
    hasSub (strL ("signals")) (missingMsg (missingOf missVal)) = true ∧
    hasSub (strL ("core_trends")) (missingMsg (missingOf missVal)) = false := by
  refine ⟨by decide, rfl, by decide, ?_, by decide, by decide⟩
  exact (c4_missing_fields_exact missInput missVal (by decide) rfl
    (by decide)).1

theorem cons_append_ne_nil (a : Char) (x y : List Char) :
    (a :: x) ++ y ≠ [] := by simp

/-- C9: `validate_config` returns `(true, "")` exactly when the model string
is non-empty, the API key is non-empty, the model contains '/', and — when
the model starts with "gemini/" and a non-empty custom endpoint is set — the
endpoint starts with an HTTP/HTTPS scheme; otherwise it returns `false` with
a non-empty message. -/
theorem c9_validate_config (c : AIClient) :
    (validate_config c = (true, []) ↔
      (c.model ≠ [] ∧ c.api_key ≠ [] ∧ memB '/' c.model = true ∧
        (hasPre (strL ("gemini/")) c.model = true → c.api_base ≠ [] →
          (hasPre (strL ("http://")) c.api_base = true ∨
           hasPre (strL ("https://")) c.api_base = true)))) ∧
    ((validate_config c).1 = false → (validate_config c).2 ≠ []) := by
  unfold validate_config
  split_ifs with h1 h2 h3 h4
  · refine ⟨⟨fun he => by simp at he, fun hr => absurd h1 hr.1⟩,
      fun _ => by decide⟩
  · refine ⟨⟨fun he => by simp at he, fun hr => absurd h2 hr.2.1⟩,
      fun _ => by decide⟩
  · refine ⟨⟨fun he => by simp at he,
      fun hr => by rw [hr.2.2.1] at h3; exact Bool.noConfusion h3⟩,
      fun _ => ?_⟩
    rw [show strL ("模型格式错误: ") = '模' :: strL ("型格式错误: ") from rfl]
    simp only [List.cons_append]
    exact (cons_append_ne_nil _ _ _)
  · refine ⟨⟨fun he => by simp at he, fun hr => ?_⟩, fun _ => ?_⟩
    · obtain ⟨hg, hb, hv⟩ := h4
      have := hr.2.2.2 hg hb
      rw [validate_gemini_endpoint, if_neg hb] at hv
      rcases this with h | h <;> rw [h] at hv <;> simp at hv
    · rw [show strL ("自定义 Gemini API 端点格式错误: ") =
        '自' :: strL ("定义 Gemini API 端点格式错误: ") from rfl]
      simp only [List.cons_append]
      exact (cons_append_ne_nil _ _ _)
  · refine ⟨⟨fun _ => ?_, fun _ => rfl⟩, fun hf => absurd hf (by decide)⟩
    refine ⟨h1, h2, ?_, ?_⟩
    · rw [Bool.not_eq_false] at h3
      exact h3
    · intro hg hb
      have hv : validate_gemini_endpoint c.api_base = true := by
        by_contra hc
        rw [Bool.not_eq_true] at hc
        exact h4 ⟨hg, hb, hc⟩
      rw [validate_gemini_endpoint, if_neg hb, Bool.or_eq_true] at hv
      exact hv

/-- Witness for C9: a well-formed configuration validates, a configuration
with an empty model is rejected with a non-empty message. -/
theorem c9_validate_config_witness :
    validate_config ⟨strL ("openai/gpt-4o"), strL ("k"), []⟩ = (true, []) ∧
    (validate_config ⟨[], strL ("k"), []⟩).2 ≠ [] :=
  ⟨(c9_validate_config ⟨strL ("openai/gpt-4o"), strL ("k"), []⟩).1.mpr
    ⟨by decide, by decide, by decide, fun hg _ => absurd hg (by decide)⟩,
   (c9_validate_config ⟨[], strL ("k"), []⟩).2 (by decide)⟩

theorem dropSlashes_idem (l : List Char) :
    dropSlashes (dropSlashes l) = dropSlashes l := by
  induction l with
  | nil => rfl
  | cons c rest ih =>
    rw [dropSlashes]
    by_cases h : c = '/'
    · rw [if_pos h]
      exact ih
    · rw [if_neg h, dropSlashes, if_neg h]

theorem rstripSlash_idem (e : List Char) :
    rstripSlash (rstripSlash e) = rstripSlash e := by
  unfold rstripSlash
  rw [List.reverse_reverse, dropSlashes_idem]

theorem rstrip_of_head_rev (x : List Char) (c : Char) (hc : c ≠ '/')
    (h : ∃ t, x.reverse = c :: t) : rstripSlash x = x := by
  obtain ⟨t, ht⟩ := h
  unfold rstripSlash
  rw [ht, dropSlashes, if_neg hc, ← ht, List.reverse_reverse]

theorem rstripSlash_append_v1 (x : List Char) :
    rstripSlash (x ++ strL ("/v1")) = x ++ strL ("/v1") := by
  apply rstrip_of_head_rev _ '1' (by decide)
  exact ⟨'v' :: '/' :: x.reverse, by simp [strL]⟩

theorem hasSuf_rev_head (pat x : List Char) (c : Char) (t : List Char)
    (hpat : pat.reverse = c :: t) (h : hasSuf pat x = true) :
    ∃ r, x.reverse = c :: r := by
  rw [hasSuf, hpat, hasPre_iff] at h
  obtain ⟨q, hq⟩ := h
  exact ⟨t ++ q, by rw [hq]; simp⟩

/-- C10: `_normalize_gemini_endpoint` is idempotent — a second application
returns its input unchanged. -/
theorem c10_normalize_idempotent (e : List Char) :
    normalize_gemini_endpoint (normalize_gemini_endpoint e) =
      normalize_gemini_endpoint e := by
  by_cases he : e = []
  · rw [he]
    rfl
  · have hdef : normalize_gemini_endpoint e =
        (if hasSub (strL ("/v1")) (rstripSlash e) = false ∧
            hasSub (strL ("/v1beta")) (rstripSlash e) = false then
          (if (hasSuf (strL ("/chat")) (rstripSlash e) ||
              hasSuf (strL ("/completions")) (rstripSlash e) ||
              hasSuf (strL ("/generate")) (rstripSlash e)) = false then
            rstripSlash e ++ strL ("/v1")
          else rstripSlash e)
        else rstripSlash e) := by
      simp only [normalize_gemini_endpoint]
      rw [if_neg he]
    rw [hdef]
    by_cases hv : hasSub (strL ("/v1")) (rstripSlash e) = false ∧
        hasSub (strL ("/v1beta")) (rstripSlash e) = false
    · rw [if_pos hv]
      by_cases hsuf : (hasSuf (strL ("/chat")) (rstripSlash e) ||
          hasSuf (strL ("/completions")) (rstripSlash e) ||
          hasSuf (strL ("/generate")) (rstripSlash e)) = false
      · rw [if_pos hsuf]
        have hne : rstripSlash e ++ strL ("/v1") ≠ [] := by simp [strL]
        simp only [normalize_gemini_endpoint]
        rw [if_neg hne, rstripSlash_append_v1]
        have hsub : hasSub (strL ("/v1")) (rstripSlash e ++ strL ("/v1")) =
            true :=
          hasSub_append_right _ _ _ (by decide)
        rw [if_neg]
        intro hcon
        rw [hsub] at hcon
        exact Bool.noConfusion hcon.1
      · rw [if_neg hsuf]
        have hsuf' : (hasSuf (strL ("/chat")) (rstripSlash e) ||
            hasSuf (strL ("/completions")) (rstripSlash e) ||
            hasSuf (strL ("/generate")) (rstripSlash e)) = true := by
          rw [Bool.not_eq_false] at hsuf
          exact hsuf
        have hfix : rstripSlash (rstripSlash e) = rstripSlash e := by
          simp only [Bool.or_eq_true] at hsuf'
          rcases hsuf' with (h | h) | h
          · obtain ⟨r, hr⟩ := hasSuf_rev_head _ _ 't' (strL ("ahc/")) (by decide) h
            exact rstrip_of_head_rev _ 't' (by decide) ⟨r, hr⟩
          · obtain ⟨r, hr⟩ := hasSuf_rev_head _ _ 's' (strL ("noitelpmoc/")) (by decide) h
            exact rstrip_of_head_rev _ 's' (by decide) ⟨r, hr⟩
          · obtain ⟨r, hr⟩ := hasSuf_rev_head _ _ 'e' (strL ("tareneg/")) (by decide) h
            exact rstrip_of_head_rev _ 'e' (by decide) ⟨r, hr⟩
        have hne : rstripSlash e ≠ [] := by
          intro hnil
          rw [hnil] at hsuf'
          exact Bool.false_ne_true ((by decide : (hasSuf (strL ("/chat"))
            ([] : List Char) || hasSuf (strL ("/completions")) [] ||
            hasSuf (strL ("/generate")) []) = false) ▸ hsuf')
        simp only [normalize_gemini_endpoint]
        rw [if_neg hne, hfix, if_pos hv,
          if_neg (by rw [hsuf']; exact fun hc => Bool.noConfusion hc)]
    · rw [if_neg hv]
      have hne : rstripSlash e ≠ [] := by
        intro hnil
        apply hv
        rw [hnil]
        exact ⟨by decide, by decide⟩
      simp only [normalize_gemini_endpoint]
      rw [if_neg hne, rstripSlash_idem, if_neg]
      intro hcon
      exact hv ⟨hcon.1, hcon.2⟩

theorem wsThenClose_ws (w : List Char) (z : List Char)
    (hw : w.all isWS = true) : wsThenClose (w ++ z) = wsThenClose z := by
  induction w with
  | nil => rfl
  | cons c rest ih =>
    rw [List.all_cons, Bool.and_eq_true] at hw
    rw [List.cons_append, wsThenClose, if_pos hw.1]
    exact ih hw.2

theorem wsThenComma_ws (w : List Char) (z : List Char)
    (hw : w.all isWS = true) : wsThenComma (w ++ z) = wsThenComma z := by
  induction w with
  | nil => rfl
  | cons c rest ih =>
    rw [List.all_cons, Bool.and_eq_true] at hw
    rw [List.cons_append, wsThenComma, if_pos hw.1]
    exact ih hw.2

theorem ws_not_comma (c : Char) (h : isWS c = true) : c ≠ ',' := by
  intro hc
  rw [hc] at h
  exact absurd h (by decide)

theorem noCommaClose_ws (w z : List Char) (hw : w.all isWS = true) :
    noCommaClose (w ++ z) = noCommaClose z := by
  induction w with
  | nil => rfl
  | cons c rest ih =>
    rw [List.all_cons, Bool.and_eq_true] at hw
    rw [List.cons_append, noCommaClose, if_neg (ws_not_comma c hw.1)]
    rw [ih hw.2]
    simp

theorem repair_clean (t : List Char) (h : noCommaClose t = true) :
    repairA t [] = t ∧
    (wsThenClose t = false → ∀ w, w.all isWS = true →
      repairA t (',' :: w) = (',' :: w) ++ t) := by
  induction t with
  | nil => exact ⟨rfl, fun _ w _ => by rw [repairA]; simp⟩
  | cons c rest ih =>
    rw [noCommaClose, Bool.and_eq_true] at h
    obtain ⟨hhead, htail⟩ := h
    obtain ⟨ih1, ih2⟩ := ih htail
    constructor
    · by_cases hc : c = ','
      · subst hc
        rw [repairA, if_pos rfl]
        rw [List.nil_append]
        have hcl : wsThenClose rest = false := by
          rw [if_pos rfl, Bool.not_eq_true'] at hhead
          exact hhead
        rw [ih2 hcl [] rfl]
        rfl
      · rw [repairA, if_neg hc, if_pos rfl, ih1]
    · intro hcl2 w hw
      by_cases hc : c = ','
      · subst hc
        rw [repairA, if_pos rfl]
        have hcl : wsThenClose rest = false := by
          rw [if_pos rfl, Bool.not_eq_true'] at hhead
          exact hhead
        rw [ih2 hcl [] rfl]
        rfl
      · rw [repairA, if_neg hc, if_neg (by simp)]
        by_cases hws : isWS c = true
        · rw [if_pos hws, List.cons_append]
          have hcl : wsThenClose rest = false := by
            rw [wsThenClose, if_pos hws] at hcl2
            exact hcl2
          rw [ih2 hcl (w ++ [c]) (by rw [List.all_append]; simp [hw, hws])]
          simp
        · have hws' : isWS c = false := by
            rw [Bool.not_eq_true] at hws
            exact hws
          by_cases hclose : c = cbr ∨ c = ']'
          · exfalso
            rw [wsThenClose, if_neg hws] at hcl2
            rcases hclose with h1 | h1
            · rw [if_pos h1] at hcl2
              exact Bool.noConfusion hcl2
            · have h2 : ¬(c = cbr) := by
                intro hx
                rw [hx] at h1
                exact absurd h1 (by decide)
              rw [if_neg h2, if_pos h1] at hcl2
              exact Bool.noConfusion hcl2
          · rw [if_neg hws, if_neg hclose, ih1]

theorem wsThenClose_nil_ws (w : List Char) (hw : w.all isWS = true) :
    wsThenClose w = false := by
  have h := wsThenClose_ws w [] hw
  rw [List.append_nil] at h
  rw [h]
  rfl

theorem noCommaClose_nil_ws (w : List Char) (hw : w.all isWS = true) :
    noCommaClose w = true := by
  have h := noCommaClose_ws w [] hw
  rw [List.append_nil] at h
  rw [h]
  rfl

theorem repair_nodbl (t : List Char) (h : noDblComma t = true) :
    noCommaClose (repairA t []) = true ∧
    (wsThenComma t = false → ∀ w, w.all isWS = true →
      noCommaClose (repairA t (',' :: w)) = true) := by
  induction t with
  | nil =>
    refine ⟨rfl, fun _ w hw => ?_⟩
    rw [repairA, noCommaClose, if_pos rfl, wsThenClose_nil_ws w hw,
      noCommaClose_nil_ws w hw]
    rfl
  | cons c rest ih =>
    rw [noDblComma, Bool.and_eq_true] at h
    obtain ⟨hhead, htail⟩ := h
    obtain ⟨ih1, ih2⟩ := ih htail
    constructor
    · by_cases hc : c = ','
      · subst hc
        rw [repairA, if_pos rfl, List.nil_append]
        have hcm : wsThenComma rest = false := by
          rw [if_pos rfl, Bool.not_eq_true'] at hhead
          exact hhead
        exact ih2 hcm [] rfl
      · rw [repairA, if_neg hc, if_pos rfl, noCommaClose, if_neg hc, ih1]
        rfl
    · intro hcm2 w hw
      by_cases hc : c = ','
      · exfalso
        subst hc
        rw [wsThenComma, if_neg (by decide), if_pos rfl] at hcm2
        exact Bool.noConfusion hcm2
      · rw [repairA, if_neg hc, if_neg (by simp)]
        by_cases hws : isWS c = true
        · rw [if_pos hws, List.cons_append]
          have hcm : wsThenComma rest = false := by
            rw [wsThenComma, if_pos hws] at hcm2
            exact hcm2
          exact ih2 hcm (w ++ [c]) (by rw [List.all_append]; simp [hw, hws])
        · by_cases hclose : c = cbr ∨ c = ']'
          · rw [if_neg hws, if_pos hclose, noCommaClose, if_neg hc, ih1]
            rfl
          · rw [if_neg hws, if_neg hclose, List.cons_append, noCommaClose,
              if_pos rfl]
            have h1 : wsThenClose (w ++ c :: repairA rest []) = false := by
              rw [wsThenClose_ws w _ hw, wsThenClose, if_neg hws]
              have hcb : ¬(c = cbr) := fun hx => hclose (Or.inl hx)
              have hcb2 : ¬(c = ']') := fun hx => hclose (Or.inr hx)
              rw [if_neg hcb, if_neg hcb2]
            have h2 : noCommaClose (w ++ c :: repairA rest []) = true := by
              rw [noCommaClose_ws w _ hw, noCommaClose, if_neg hc, ih1]
              rfl
            rw [h1, h2]
            rfl

theorem repair_drop_ws (w w0 : List Char) (cl : Char)
    (hw : w.all isWS = true) (hw0 : w0.all isWS = true)
    (hcl : cl = cbr ∨ cl = ']') :
    repairA (w ++ [cl]) (',' :: w0) = [cl] := by
  induction w generalizing w0 with
  | nil =>
    have hclc : ¬(cl = ',') := by
      rcases hcl with rfl | rfl <;> decide
    have hclw : ¬(isWS cl = true) := by
      rcases hcl with rfl | rfl <;> decide
    rw [List.nil_append, repairA, if_neg hclc, if_neg (by simp),
      if_neg hclw, if_pos hcl]
    rfl
  | cons c w' ih =>
    rw [List.all_cons, Bool.and_eq_true] at hw
    rw [List.cons_append, repairA, if_neg (ws_not_comma c hw.1),
      if_neg (by simp), if_pos hw.1, List.cons_append]
    exact ih (w0 ++ [c]) hw.2 (by rw [List.all_append]; simp [hw0, hw.1])

/-- C8 counterexample: `["a,]"]` is syntactically valid JSON (its decoding
succeeds) yet the repairer changes it, and the repairer is not idempotent on
`[1,,]`. -/
theorem c8_repair_counterexample :
    decodeJson (strL ("[\"a,]\"]")) =
      some (Json.arr (JArr.cons (Json.str (strL ("a,]"))) JArr.nil)) ∧
    repair_common_json_issues (strL ("[\"a,]\"]")) ≠ strL ("[\"a,]\"]") ∧
    repair_common_json_issues (repair_common_json_issues (strL ("[1,,]"))) ≠
      repair_common_json_issues (strL ("[1,,]")) :=
  ⟨rfl, by decide, by decide⟩

/-- C8 (amended): the repairer removes a trailing comma and intervening
whitespace before a closing bracket (the two claimed examples, and in
general for a comma-whitespace-bracket group); it returns unchanged every
text in which no comma is followed, after only whitespace, by a closing
bracket; and it is idempotent on every text in which no comma is followed,
after only whitespace, by another comma. -/
theorem c8_repair_behaviour :
    repair_common_json_issues (strL ("\x7b\"a\": 1, \x7d")) =
      strL ("\x7b\"a\": 1\x7d") ∧
    repair_common_json_issues (strL ("[1, 2, ]")) = strL ("[1, 2]") ∧
    (∀ (w : List Char) (cl : Char), w.all isWS = true →
      (cl = cbr ∨ cl = ']') →
      repair_common_json_issues (',' :: (w ++ [cl])) = [cl]) ∧
    (∀ t, noCommaClose t = true → repair_common_json_issues t = t) ∧
    (∀ t, noDblComma t = true →
      repair_common_json_issues (repair_common_json_issues t) =
        repair_common_json_issues t) := by
  refine ⟨by decide, by decide, ?_, ?_, ?_⟩
  · intro w cl hw hcl
    unfold repair_common_json_issues
    rw [repairA, if_pos rfl, List.nil_append]
    exact repair_drop_ws w [] cl hw rfl hcl
  · intro t h
    exact (repair_clean t h).1
  · intro t h
    exact (repair_clean _ (repair_nodbl t h).1).1

/-- Witness for C8's conditional parts at `'{"a": [1, 2]}'` (unchanged) and
`'[1, 2, ]'` (idempotence after one repair). -/
theorem c8_repair_behaviour_witness :
    noCommaClose (strL ("\x7b\"a\": [1, 2]\x7d")) = true ∧
    repair_common_json_issues (strL ("\x7b\"a\": [1, 2]\x7d")) =
      strL ("\x7b\"a\": [1, 2]\x7d") ∧
    noDblComma (strL ("[1, 2, ]")) = true ∧
    repair_common_json_issues (repair_common_json_issues (strL ("[1, 2, ]"))) =
      repair_common_json_issues (strL ("[1, 2, ]")) ∧
    (strL (" \n")).all isWS = true ∧
    repair_common_json_issues (',' :: (strL (" \n") ++ [']'])) = [']'] :=
  ⟨by decide,
   c8_repair_behaviour.2.2.2.1 _ (by decide),
   by decide,
   c8_repair_behaviour.2.2.2.2 _ (by decide),
   by decide,
   c8_repair_behaviour.2.2.1 (strL (" \n")) ']' (by decide) (by decide)⟩

/-- C6: the stored field values of a successful parse are the coercions of
the decoded JSON values: null coerces to the empty string, strings pass
through, numbers and booleans take their string form, and objects/arrays
serialize to a non-empty JSON text that decodes back to the original value
(decoder-produced values are always in the well-formed fragment). -/
theorem c6_field_value_coercion :
    (∀ (s : List Char) (v : Json),
      looks_unrelated s = false →
      decodeJson (repair_common_json_issues (extract_json_text (some s))) =
        some v →
      missingOf v = [] →
      (requiredFields.map (fieldValue v)).any looks_unrelated = false →
      parse_response (some s) =
        ParseResult.success (fieldValue v (strL ("core_trends")))
          (fieldValue v (strL ("sentiment_controversy")))
          (fieldValue v (strL ("signals")))
          (fieldValue v (strL ("rss_insights")))
          (fieldValue v (strL ("outlook_strategy")))) ∧
    (∀ v f, fieldValue v f = coerceValue ((getField v f).getD Json.null)) ∧
    coerceValue Json.null = [] ∧
    (∀ t, coerceValue (Json.str t) = t) ∧
    (∀ t, coerceValue (Json.num t) = t) ∧
    coerceValue (Json.bool true) = strL ("True") ∧
    coerceValue (Json.bool false) = strL ("False") ∧
    (∀ l v, decodeJson l = some v → wfJ v = true) ∧
    (∀ ms, wfM ms = true →
      coerceValue (Json.obj ms) = serialize (Json.obj ms) ∧
      serialize (Json.obj ms) ≠ [] ∧
      decodeJson (serialize (Json.obj ms)) = some (Json.obj ms)) ∧
    (∀ xs, wfA xs = true →
      coerceValue (Json.arr xs) = serialize (Json.arr xs) ∧
      serialize (Json.arr xs) ≠ [] ∧
      decodeJson (serialize (Json.arr xs)) = some (Json.arr xs)) := by
  refine ⟨?_, fun v f => rfl, rfl, fun t => rfl, fun t => rfl, rfl, rfl,
    decodeJson_wf, ?_, ?_⟩
  · intro s v h1 h2 h3 h4
    rw [parse_response_decoded s v h1 h2, validateFields_success v h3 h4]
  · intro ms hwf
    refine ⟨rfl, ?_, decodeJson_serialize (Json.obj ms) (by rw [wfJ]; exact hwf)⟩
    rw [show serialize (Json.obj ms) = obr :: (serMembers ms ++ [cbr]) from by
      rw [serialize]; simp]
    simp
  · intro xs hwf
    refine ⟨rfl, ?_, decodeJson_serialize (Json.arr xs) (by rw [wfJ]; exact hwf)⟩
    rw [show serialize (Json.arr xs) = '[' :: (serItems xs ++ [']']) from by
      rw [serialize]; simp]
    simp

/-- Witness for C6: the nested object is stored as its JSON text (which
decodes back to it) and the null field as the empty string. -/
theorem c6_field_value_coercion_witness :
    looks_unrelated coerceInput = false ∧
    decodeJson (repair_common_json_issues (extract_json_text
      (some coerceInput))) = some coerceVal ∧
    missingOf coerceVal = [] ∧
    (requiredFields.map (fieldValue coerceVal)).any looks_unrelated = false ∧
    parse_response (some coerceInput) =
      ParseResult.success (strL ("\x7b\"key\":\"value\"\x7d")) []
        (strL ("c")) (strL ("d")) (strL ("e")) ∧
    decodeJson (strL ("\x7b\"key\":\"value\"\x7d")) =
      some (Json.obj (JMembers.cons (strL ("key")) (Json.str (strL ("value")))
        JMembers.nil)) := by
  refine ⟨by decide, rfl, by decide, by decide, ?_, rfl⟩
  have h := c6_field_value_coercion.1 coerceInput coerceVal (by decide) rfl
    (by decide) (by decide)
  rw [h]
  rfl

theorem map_decomp3 (f : Char → Char) (a p m q : List Char)
    (h : a.map f = p ++ m ++ q) :
    ∃ p₀ m₀ q₀, a = p₀ ++ m₀ ++ q₀ ∧ p₀.map f = p ∧ m₀.map f = m ∧
      q₀.map f = q := by
  refine ⟨a.take p.length, (a.drop p.length).take m.length,
    (a.drop p.length).drop m.length, ?_, ?_, ?_, ?_⟩
  · rw [List.append_assoc, List.take_append_drop, List.take_append_drop]
  · rw [List.map_take, h]
    rw [List.append_assoc, List.take_left]
  · rw [List.map_take, List.map_drop, h]
    rw [List.append_assoc, List.drop_left, List.take_left]
  · rw [List.map_drop, List.map_drop, h]
    rw [List.append_assoc, List.drop_left, List.drop_left]

theorem escapeStr_append (x y : List Char) :
    escapeStr (x ++ y) = escapeStr x ++ escapeStr y := by
  induction x with
  | nil => rfl
  | cons c rest ih =>
    rw [List.cons_append, escapeStr, escapeStr]
    by_cases h1 : c = qt
    · rw [if_pos h1, if_pos h1, ih]
      rfl
    · rw [if_neg h1, if_neg h1]
      by_cases h2 : c = bslash
      · rw [if_pos h2, if_pos h2, ih]
        rfl
      · rw [if_neg h2, if_neg h2, ih]
        rfl

theorem escapeStr_fixed (z : List Char)
    (h : ∀ c ∈ z, c ≠ qt ∧ c ≠ bslash) : escapeStr z = z := by
  induction z with
  | nil => rfl
  | cons c rest ih =>
    obtain ⟨h1, h2⟩ := h c (List.mem_cons_self c rest)
    rw [escapeStr, if_neg h1, if_neg h2,
      ih (fun x hx => h x (List.mem_cons_of_mem c hx))]

theorem marker_no_qt_bslash :
    ∀ m ∈ driftMarkers, memB qt m = false ∧ memB bslash m = false := by
  decide

theorem value_drift_free (a T : List Char)
    (hsubT : ∃ X Y, T = X ++ escapeStr a ++ Y)
    (hT : looks_unrelated T = false) : looks_unrelated a = false := by
  rw [looks_unrelated_eq_false_iff] at hT ⊢
  intro m hm
  by_contra hc
  rw [Bool.not_eq_false, hasSub_iff] at hc
  obtain ⟨p, q, hpq⟩ := hc
  obtain ⟨p₀, m₀, q₀, ha, hp₀, hm₀, hq₀⟩ :=
    map_decomp3 lowerChar a p m q (by rw [← hpq]; rfl)
  have hm₀safe : ∀ c ∈ m₀, c ≠ qt ∧ c ≠ bslash := by
    intro c hcm
    obtain ⟨hq1, hq2⟩ := marker_no_qt_bslash m hm
    constructor
    · rintro rfl
      have : lowerChar qt ∈ m := by
        rw [← hm₀]
        exact List.mem_map_of_mem lowerChar hcm
      rw [show lowerChar qt = qt from by decide] at this
      rw [(memB_iff qt m).mpr this] at hq1
      exact Bool.noConfusion hq1
    · rintro rfl
      have : lowerChar bslash ∈ m := by
        rw [← hm₀]
        exact List.mem_map_of_mem lowerChar hcm
      rw [show lowerChar bslash = bslash from by decide] at this
      rw [(memB_iff bslash m).mpr this] at hq2
      exact Bool.noConfusion hq2
  obtain ⟨X, Y, hT2⟩ := hsubT
  have hTdec : T = (X ++ escapeStr p₀) ++ m₀ ++ (escapeStr q₀ ++ Y) := by
    rw [hT2, ha, escapeStr_append, escapeStr_append,
      escapeStr_fixed m₀ hm₀safe]
    simp
  have hsub : hasSub m (lowerL T) = true := by
    rw [hasSub_iff]
    refine ⟨lowerL (X ++ escapeStr p₀), lowerL (escapeStr q₀ ++ Y), ?_⟩
    rw [hTdec, lowerL_append, lowerL_append]
    rw [show lowerL m₀ = m from hm₀]
  have := hT m hm
  rw [hsub] at this
  exact Bool.noConfusion this

theorem dropToBrace_obr (t : List Char) : dropToBrace (obr :: t) = obr :: t := by
  rw [dropToBrace, if_pos rfl]

theorem findObjectSpan_serialize_obj (ms : JMembers) (hwf : wfM ms = true) :
    findObjectSpan (serialize (Json.obj ms)) =
      some (serialize (Json.obj ms)) := by
  have hser : serialize (Json.obj ms) = obr :: (serMembers ms ++ [cbr]) := by
    rw [serialize]; simp
  unfold findObjectSpan
  rw [hser, dropToBrace_obr]
  have h1 : scanOb (obr :: (serMembers ms ++ [cbr])) (0, SMode.norm) 0 =
      some ((serMembers ms).length + 2) := by
    rw [scanOb, show sstep (0, SMode.norm) obr = some (1, SMode.norm) from by
      rw [sstep_norm, if_neg (by decide), if_pos rfl]]
    show scanOb (serMembers ms ++ [cbr]) (1, SMode.norm) (0 + 1) =
      some ((serMembers ms).length + 2)
    rw [scanOb_of_scanList _ _ _ _ _ (scanSer_members ms hwf 1 (by omega))]
    rw [scanOb, show sstep (1, SMode.norm) cbr = none from by
      rw [sstep_norm, if_neg (by decide), if_neg (by decide), if_pos rfl,
        if_pos (by omega)]]
    show some (0 + 1 + (serMembers ms).length + 1) =
      some ((serMembers ms).length + 2)
    congr 1
    omega
  simp only [h1, Option.map_some']
  congr 1
  have hlen : (obr :: (serMembers ms ++ [cbr])).length =
      (serMembers ms).length + 2 := by simp
  rw [← hlen, List.take_length]

theorem stripBOM_cons (c : Char) (t : List Char) (h : c ≠ '﻿') :
    stripBOM (c :: t) = c :: t := by
  rw [stripBOM, if_neg h]

theorem extract_serialize_obj (ms : JMembers) (hwf : wfM ms = true)
    (hnb : memB btick (serialize (Json.obj ms)) = false) :
    extract_json_text (some (serialize (Json.obj ms))) =
      serialize (Json.obj ms) := by
  have hser : serialize (Json.obj ms) = obr :: (serMembers ms ++ [cbr]) := by
    rw [serialize]; simp
  have htrim : trimL (serialize (Json.obj ms)) = serialize (Json.obj ms) := by
    rw [hser]
    exact trimL_self obr cbr _ (by decide) (by decide)
  simp only [extract_json_text]
  rw [show stripBOM (serialize (Json.obj ms)) = serialize (Json.obj ms) from by
    rw [hser]; exact stripBOM_cons _ _ (by decide)]
  rw [htrim]
  rw [if_neg (by rw [hser]; simp)]
  rw [findFence_none _ hnb, findObjectSpan_serialize_obj ms hwf]
  show trimL (serialize (Json.obj ms)) = serialize (Json.obj ms)
  exact htrim

theorem sub_trans (A B C X Y X' Y' : List Char) (h1 : A = X ++ B ++ Y)
    (h2 : B = X' ++ C ++ Y') : ∃ P Q, A = P ++ C ++ Q := by
  refine ⟨X ++ X', Y' ++ Y, ?_⟩
  rw [h1, h2]
  simp

theorem serMembers_cons_sub (k : List Char) (v : Json) (tl : JMembers) :
    ∃ X Y, serMembers (JMembers.cons k v tl) = X ++ serialize v ++ Y := by
  cases tl with
  | nil =>
    refine ⟨qt :: escapeStr k ++ [qt, ':'], [], ?_⟩
    rw [serMembers]
    simp
  | cons k2 v2 tl2 =>
    refine ⟨qt :: escapeStr k ++ [qt, ':'],
      ',' :: serMembers (JMembers.cons k2 v2 tl2), ?_⟩
    rw [show serMembers (JMembers.cons k v (JMembers.cons k2 v2 tl2)) =
      (qt :: escapeStr k ++ qt :: ':' :: serialize v) ++
        ',' :: serMembers (JMembers.cons k2 v2 tl2) from rfl]
    simp

theorem serMembers_tail_sub (t k : List Char) (v : Json) (k2 : List Char)
    (v2 : Json) (tl2 : JMembers)
    (h : ∃ X Y, serMembers (JMembers.cons k2 v2 tl2) = X ++ t ++ Y) :
    ∃ X Y, serMembers (JMembers.cons k v (JMembers.cons k2 v2 tl2)) =
      X ++ t ++ Y := by
  obtain ⟨X, Y, hx⟩ := h
  refine ⟨(qt :: escapeStr k ++ qt :: ':' :: serialize v) ++ ',' :: X, Y, ?_⟩
  rw [show serMembers (JMembers.cons k v (JMembers.cons k2 v2 tl2)) =
    (qt :: escapeStr k ++ qt :: ':' :: serialize v) ++
      ',' :: serMembers (JMembers.cons k2 v2 tl2) from rfl, hx]
  simp

theorem obj_value_sub (t : List Char) (ms : JMembers)
    (h : ∃ X Y, serMembers ms = X ++ t ++ Y) :
    ∃ X Y, serialize (Json.obj ms) = X ++ t ++ Y := by
  obtain ⟨X, Y, hx⟩ := h
  refine ⟨obr :: X, Y ++ [cbr], ?_⟩
  rw [serialize, hx]
  simp

theorem str_escape_sub (s : List Char) :
    ∃ X Y, serialize (Json.str s) = X ++ escapeStr s ++ Y := by
  refine ⟨[qt], [qt], ?_⟩
  rw [serialize]
  simp

theorem sub_trans2 (A B C : List Char) (h1 : ∃ X Y, A = X ++ B ++ Y)
    (h2 : ∃ X Y, B = X ++ C ++ Y) : ∃ P Q, A = P ++ C ++ Q := by
  obtain ⟨X, Y, hx⟩ := h1
  obtain ⟨X', Y', hy⟩ := h2
  exact sub_trans A B C X Y X' Y' hx hy

/-- C1 counterexample: `cexC1` is a raw input that is a valid JSON object
holding all five required fields as direct string values (it decodes as
such an object) and contains no drift marker, yet `parse_response` fails
with a decode error instead of succeeding — the fenced-block extraction
picks the backtick span inside the `core_trends` value. -/
theorem c1_counterexample :
    decodeJson cexC1 =
      some (Json.obj (mkFive (strL ("```x```")) (strL ("b")) (strL ("c"))
        (strL ("d")) (strL ("e")))) ∧
    looks_unrelated cexC1 = false ∧
    parse_response (some cexC1) =
      ParseResult.failure FailCat.decodeError (decodeMsg (strL ("x"))) :=
  ⟨rfl, by decide, by decide⟩

/-- C1 (amended): for every raw input that is the canonical JSON object
text with the five required fields as direct string values, provided the
text contains no backtick, no drift marker, and is left unchanged by the
repair pass, `parse_response` returns Success with the five values
unchanged. -/
theorem c1_direct_string_success (a b c d e : List Char)
    (hb : memB btick (mkObjText a b c d e) = false)
    (hdrift : looks_unrelated (mkObjText a b c d e) = false)
    (hrep : repair_common_json_issues (mkObjText a b c d e) =
      mkObjText a b c d e) :
    parse_response (some (mkObjText a b c d e)) =
      ParseResult.success a b c d e := by
  have hwfm : wfM (mkFive a b c d e) = true := rfl
  have hext : extract_json_text (some (mkObjText a b c d e)) =
      mkObjText a b c d e := extract_serialize_obj _ hwfm hb
  have hdec : decodeJson (repair_common_json_issues
      (extract_json_text (some (mkObjText a b c d e)))) =
      some (Json.obj (mkFive a b c d e)) := by
    rw [hext, hrep]
    exact decodeJson_serialize _ hwfm
  have hpa : ∃ X Y, serMembers (mkFive a b c d e) = X ++ escapeStr a ++ Y :=
    sub_trans2 _ _ _ (serMembers_cons_sub _ _ _) (str_escape_sub a)
  have hpb : ∃ X Y, serMembers (mkFive a b c d e) = X ++ escapeStr b ++ Y :=
    serMembers_tail_sub _ _ _ _ _ _
      (sub_trans2 _ _ _ (serMembers_cons_sub _ _ _) (str_escape_sub b))
  have hpc : ∃ X Y, serMembers (mkFive a b c d e) = X ++ escapeStr c ++ Y :=
    serMembers_tail_sub _ _ _ _ _ _ (serMembers_tail_sub _ _ _ _ _ _
      (sub_trans2 _ _ _ (serMembers_cons_sub _ _ _) (str_escape_sub c)))
  have hpd : ∃ X Y, serMembers (mkFive a b c d e) = X ++ escapeStr d ++ Y :=
    serMembers_tail_sub _ _ _ _ _ _ (serMembers_tail_sub _ _ _ _ _ _
      (serMembers_tail_sub _ _ _ _ _ _
        (sub_trans2 _ _ _ (serMembers_cons_sub _ _ _) (str_escape_sub d))))
  have hpe : ∃ X Y, serMembers (mkFive a b c d e) = X ++ escapeStr e ++ Y :=
    serMembers_tail_sub _ _ _ _ _ _ (serMembers_tail_sub _ _ _ _ _ _
      (serMembers_tail_sub _ _ _ _ _ _ (serMembers_tail_sub _ _ _ _ _ _
        (sub_trans2 _ _ _ (serMembers_cons_sub _ _ _) (str_escape_sub e)))))
  have l1 : looks_unrelated a = false :=
    value_drift_free a _ (obj_value_sub _ _ hpa) hdrift
  have l2 : looks_unrelated b = false :=
    value_drift_free b _ (obj_value_sub _ _ hpb) hdrift
  have l3 : looks_unrelated c = false :=
    value_drift_free c _ (obj_value_sub _ _ hpc) hdrift
  have l4 : looks_unrelated d = false :=
    value_drift_free d _ (obj_value_sub _ _ hpd) hdrift
  have l5 : looks_unrelated e = false :=
    value_drift_free e _ (obj_value_sub _ _ hpe) hdrift
  have hall : missingOf (Json.obj (mkFive a b c d e)) = [] := rfl
  have hmap : requiredFields.map (fieldValue (Json.obj (mkFive a b c d e))) =
      [a, b, c, d, e] := rfl
  have hnod : (requiredFields.map
      (fieldValue (Json.obj (mkFive a b c d e)))).any looks_unrelated =
      false := by
    rw [hmap]
    simp only [List.any_cons, List.any_nil, l1, l2, l3, l4, l5]
    rfl
  rw [parse_response_decoded _ _ hdrift hdec,
    validateFields_success _ hall hnod]
  rfl

/-- Witness for C1: the claim's example input equals the canonical object
text at values "a".."e", and `parse_response` returns Success with
core_trends = "a" and outlook_strategy = "e". -/
theorem c1_direct_string_success_witness :
    mkObjText (strL ("a")) (strL ("b")) (strL ("c")) (strL ("d"))
      (strL ("e")) =
      strL ("\x7b\"core_trends\":\"a\",\"sentiment_controversy\":\"b\",\"signals\":\"c\",\"rss_insights\":\"d\",\"outlook_strategy\":\"e\"\x7d") ∧
    parse_response (some (strL ("\x7b\"core_trends\":\"a\",\"sentiment_controversy\":\"b\",\"signals\":\"c\",\"rss_insights\":\"d\",\"outlook_strategy\":\"e\"\x7d"))) =
      ParseResult.success (strL ("a")) (strL ("b")) (strL ("c"))
        (strL ("d")) (strL ("e")) :=
  ⟨rfl,
   c1_direct_string_success (strL ("a")) (strL ("b")) (strL ("c"))
     (strL ("d")) (strL ("e")) (by decide) (by decide) (by decide)⟩

theorem hasPre_self_append (p t : List Char) : hasPre p (p ++ t) = true := by
  induction p with
  | nil => rfl
  | cons c ps ih =>
    rw [List.cons_append, hasPre]
    simp [ih]

theorem dropJsonTag_json (t : List Char) :
    dropJsonTag (strL ("json") ++ t) = t := by
  rw [dropJsonTag, if_pos (hasPre_self_append (strL ("json")) t)]
  rfl

theorem dropJsonTag_nl (t : List Char) :
    dropJsonTag ('\n' :: t) = '\n' :: t := by
  have h : hasPre (strL ("json")) ('\n' :: t) = false := by
    rw [show strL ("json") = 'j' :: ['s', 'o', 'n'] from rfl, hasPre]
    rw [show (('j' == '\n') : Bool) = false from rfl, Bool.false_and]
  rw [dropJsonTag, if_neg (by rw [h]; exact Bool.false_ne_true)]

theorem dropToBrace_append_no_obr (p l : List Char)
    (h : memB obr p = false) : dropToBrace (p ++ l) = dropToBrace l := by
  induction p with
  | nil => rfl
  | cons c p' ih =>
    rw [memB_cons] at h
    rw [List.cons_append, dropToBrace, if_neg h.1, ih h.2]

theorem trimL_ne_nil_of_mem (l : List Char) (c : Char) (hc : c ∈ l)
    (hw : isWS c = false) : trimL l ≠ [] := by
  intro h
  have hall := (trimL_eq_nil_iff l).mp h
  rw [List.all_eq_true] at hall
  rw [hall c hc] at hw
  exact Bool.noConfusion hw

theorem extract_fence (tag J : List Char)
    (htag : tag = strL ("json") ∨ tag = [])
    (hbJ : memB btick J = false) :
    extract_json_text (some ((strL ("```") ++ tag ++ strL ("\n")) ++
      (J ++ strL ("\n```")))) = trimL J := by
  have hW : (strL ("```") ++ tag ++ strL ("\n")) ++ (J ++ strL ("\n```")) =
      btick :: btick :: btick ::
        (tag ++ '\n' :: (J ++ '\n' :: btick :: btick :: btick :: [])) := by
    simp [show strL ("```") = [btick, btick, btick] from rfl,
      show strL ("\n") = ['\n'] from rfl,
      show strL ("\n```") = ['\n', btick, btick, btick] from rfl]
  rw [hW]
  have hdf : dropToFence (btick :: btick :: btick ::
      (tag ++ '\n' :: (J ++ '\n' :: btick :: btick :: btick :: []))) =
      some (tag ++ '\n' :: (J ++ '\n' :: btick :: btick :: btick :: [])) := by
    have h := dropToFence_concat []
      (tag ++ '\n' :: (J ++ '\n' :: btick :: btick :: btick :: [])) rfl
    rwa [List.nil_append] at h
  have hmemx : memB btick ('\n' :: (J ++ ['\n'])) = false :=
    (memB_cons _ _ _).mpr ⟨by decide,
      (memB_append _ _ _).mpr ⟨hbJ, by decide⟩⟩
  have hshape : '\n' :: (J ++ '\n' :: btick :: btick :: btick :: []) =
      ('\n' :: (J ++ ['\n'])) ++ btick :: btick :: btick :: [] := by
    simp
  have hff : findFence (btick :: btick :: btick ::
      (tag ++ '\n' :: (J ++ '\n' :: btick :: btick :: btick :: []))) =
      some ('\n' :: (J ++ ['\n'])) := by
    rw [findFence, hdf]
    show takeToFence (dropJsonTag
      (tag ++ '\n' :: (J ++ '\n' :: btick :: btick :: btick :: []))) =
      some ('\n' :: (J ++ ['\n']))
    cases htag with
    | inl h =>
      subst h
      rw [dropJsonTag_json, hshape]
      exact takeToFence_concat _ [] hmemx
    | inr h =>
      subst h
      rw [List.nil_append, dropJsonTag_nl, hshape]
      exact takeToFence_concat _ [] hmemx
  simp only [extract_json_text]
  rw [stripBOM_cons _ _ (by decide)]
  rw [if_neg (trimL_ne_nil_of_mem _ btick (by simp) (by decide))]
  rw [hff]
  show trimL ('\n' :: (J ++ ['\n'])) = trimL J
  rw [trimL_cons_ws _ _ (by decide), trimL_append_ws '\n' J (by decide)]

theorem extract_prose (p₁ J p₂ : List Char)
    (hshape : ∃ mid, J = obr :: (mid ++ [cbr]))
    (hspan : findObjectSpan J = some J)
    (hb : memB btick (p₁ ++ (J ++ p₂)) = false)
    (hobr1 : memB obr p₁ = false)
    (hbom : memB '﻿' p₁ = false) :
    extract_json_text (some (p₁ ++ (J ++ p₂))) = trimL J := by
  obtain ⟨mid, hJ⟩ := hshape
  have hsc : scanOb J (0, SMode.norm) 0 = some J.length := by
    simp only [findObjectSpan] at hspan
    rw [show dropToBrace J = J from by rw [hJ]; exact dropToBrace_obr _]
      at hspan
    cases hn : scanOb J (0, SMode.norm) 0 with
    | none =>
      rw [hn] at hspan
      simp at hspan
    | some n =>
      rw [hn] at hspan
      simp only [Option.map_some'] at hspan
      have htake : J.take n = J := Option.some.inj hspan
      obtain ⟨x, y, hxy, hnv⟩ := scanOb_done_shape J _ 0 n hn
      have hlen : n ≤ J.length := by
        rw [hxy]
        simp
        omega
      have hl2 := congrArg List.length htake
      rw [List.length_take, Nat.min_eq_left hlen] at hl2
      rw [hl2]
  have hos : findObjectSpan (p₁ ++ (J ++ p₂)) = some J := by
    simp only [findObjectSpan]
    rw [dropToBrace_append_no_obr _ _ hobr1]
    rw [show dropToBrace (J ++ p₂) = J ++ p₂ from by
      rw [hJ]; exact dropToBrace_obr ((mid ++ [cbr]) ++ p₂)]
    rw [scanOb_extend J p₂ _ 0 J.length hsc]
    simp only [Option.map_some']
    rw [List.take_left]
  have hsb : stripBOM (p₁ ++ (J ++ p₂)) = p₁ ++ (J ++ p₂) := by
    cases p₁ with
    | nil =>
      rw [List.nil_append, hJ]
      exact stripBOM_cons obr ((mid ++ [cbr]) ++ p₂) (by decide)
    | cons c p' =>
      rw [memB_cons] at hbom
      rw [List.cons_append]
      exact stripBOM_cons c _ hbom.1
  have hne : trimL (p₁ ++ (J ++ p₂)) ≠ [] :=
    trimL_ne_nil_of_mem _ obr (by rw [hJ]; simp) (by decide)
  simp only [extract_json_text]
  rw [hsb, if_neg hne, findFence_none _ hb, hos]

/-- C7 counterexample: the bare object text succeeds, yet prefixing it with
the drift-marker-free prose "x\x7by " makes `parse_response` fail with a
decode error — the brace inside the prose derails the object-span
extraction, so arbitrary prose prefixes are not transparent. -/
theorem c7_counterexample :
    parse_response (some bareC7) =
      ParseResult.success (strL ("a")) (strL ("b")) (strL ("c"))
        (strL ("d")) (strL ("e")) ∧
    looks_unrelated (strL ("x\x7by ")) = false ∧
    parse_response (some proseC7) =
      ParseResult.failure FailCat.decodeError (decodeMsg proseC7) :=
  ⟨by decide, by decide, by decide⟩

/-- C7 (amended): for every JSON object text `J` that trims to itself, is
its own brace-balanced span, contains no backtick, no drift marker, and
whose repaired form decodes to a value validating as Success, wrapping `J`
in a triple-backtick fence (with a `json` tag or none) preserves that
Success; and so does surrounding `J` with prose, provided the prefix prose
contains no backtick, no opening brace, no byte-order mark and no drift
marker, and the suffix prose contains no backtick and no drift marker. -/
theorem c7_wrapping_invariance (J p₁ p₂ tag : List Char) (v : Json)
    (a b c d e : List Char)
    (hshape : ∃ mid, J = obr :: (mid ++ [cbr]))
    (hspan : findObjectSpan J = some J)
    (hbJ : memB btick J = false)
    (hb1 : memB btick p₁ = false)
    (hb2 : memB btick p₂ = false)
    (hobr1 : memB obr p₁ = false)
    (hbom : memB '﻿' p₁ = false)
    (hdJ : looks_unrelated J = false)
    (hd1 : looks_unrelated p₁ = false)
    (hd2 : looks_unrelated p₂ = false)
    (htag : tag = strL ("json") ∨ tag = [])
    (hdec : decodeJson (repair_common_json_issues J) = some v)
    (hval : validateFields v = ParseResult.success a b c d e) :
    parse_response (some J) = ParseResult.success a b c d e ∧
    parse_response (some ((strL ("```") ++ tag ++ strL ("\n")) ++
      (J ++ strL ("\n```")))) = ParseResult.success a b c d e ∧
    parse_response (some (p₁ ++ (J ++ p₂))) =
      ParseResult.success a b c d e := by
  obtain ⟨mid, hJ⟩ := hshape
  have htrim : trimL J = J := by
    rw [hJ]
    exact trimL_self obr cbr mid (by decide) (by decide)
  have hextJ : extract_json_text (some J) = J := by
    simp only [extract_json_text]
    rw [show stripBOM J = J from by
      rw [hJ]; exact stripBOM_cons obr (mid ++ [cbr]) (by decide)]
    rw [if_neg (by rw [htrim, hJ]; exact fun h => List.noConfusion h)]
    rw [findFence_none _ hbJ, hspan]
    show trimL J = J
    exact htrim
  refine ⟨?_, ?_, ?_⟩
  · rw [parse_response_decoded J v hdJ (by rw [hextJ]; exact hdec)]
    exact hval
  · have hdr := looks_unrelated_glue_fence tag J htag hdJ
    rw [parse_response_decoded _ v hdr
      (by rw [extract_fence tag J htag hbJ, htrim]; exact hdec)]
    exact hval
  · have hdr := looks_unrelated_glue_three p₁ J p₂ ⟨mid ++ [cbr], hJ⟩
      ⟨obr :: mid, by rw [hJ]; simp⟩ hd1 hdJ hd2
    have hbW : memB btick (p₁ ++ (J ++ p₂)) = false :=
      (memB_append _ _ _).mpr ⟨hb1, (memB_append _ _ _).mpr ⟨hbJ, hb2⟩⟩
    rw [parse_response_decoded _ v hdr
      (by rw [extract_prose p₁ J p₂ ⟨mid, hJ⟩ hspan hbW hobr1 hbom, htrim]
          exact hdec)]
    exact hval

/-- Witness for C7: the example object text, its `json`-tagged fenced
wrapping, and its wrapping between the prose "note " and " thanks" all
yield the same Success. -/
theorem c7_wrapping_invariance_witness :
    parse_response (some bareC7) =
      ParseResult.success (strL ("a")) (strL ("b")) (strL ("c"))
        (strL ("d")) (strL ("e")) ∧
    parse_response (some ((strL ("```") ++ strL ("json") ++ strL ("\n")) ++
      (bareC7 ++ strL ("\n```")))) =
      ParseResult.success (strL ("a")) (strL ("b")) (strL ("c"))
        (strL ("d")) (strL ("e")) ∧
    parse_response (some (strL ("note ") ++ (bareC7 ++ strL (" thanks")))) =
      ParseResult.success (strL ("a")) (strL ("b")) (strL ("c"))
        (strL ("d")) (strL ("e")) :=
  c7_wrapping_invariance bareC7 (strL ("note ")) (strL (" thanks"))
    (strL ("json"))
    (Json.obj (mkFive (strL ("a")) (strL ("b")) (strL ("c")) (strL ("d"))
      (strL ("e"))))
    (strL ("a")) (strL ("b")) (strL ("c")) (strL ("d")) (strL ("e"))
    ⟨strL ("\"core_trends\":\"a\",\"sentiment_controversy\":\"b\",\"signals\":\"c\",\"rss_insights\":\"d\",\"outlook_strategy\":\"e\""), rfl⟩
    (by decide) (by decide) (by decide) (by decide) (by decide) (by decide)
    (by decide) (by decide) (by decide) (Or.inl rfl) rfl rfl
